import Mathlib

/-!
Verification development for the Apple Mach-O code-signing core of this
repository (`tugger-apple-codesign`): the Mach-O rewriter
(`create_macho_with_signature`), the signing capability check
(`check_signing_capability`), the two-pass signing pipeline and fat assembly
(`MachOSigner::write_signed_binary`), the Code Directory builder
(`MachOSigner::create_code_directory`) from `macho_signing.rs`, and the scoped
settings model (`SigningSettings`, `SettingsScope`) from `signing.rs`.

Bytes are modelled as `List Nat`, machine integers as `Nat` with explicit
`% 2^w` where the source truncates.  Fallible code returns `Except` or a
dedicated result type with an explicit `panic` outcome where the source uses
`assert!`/`unwrap`.
-/

namespace AppleCodesign

/-- Errors of the signing core (`error.rs` / `AppleCodesignError`); only the
variants the verified code can surface are modelled. -/
inductive AppleCodesignError where
  | BinaryNoCodeSignature
  | LinkeditNotLast
  | DataAfterSignature
  | SignatureDataTooLarge
  | NoIdentifier
  | DigestUnknown
  | MachOParse
  | ParseSettingsScope (msg : String)
deriving DecidableEq, Repr

/-! ## Byte-level encoding helpers (scroll `iowrite_with` on integers) -/

/-- Little-endian byte encoding of `n` on `w` bytes (byte `k` is
`n / 2^(8k) % 256`). -/
def encLE (w n : Nat) : List Nat :=
  (List.range w).map fun k => n / 2 ^ (8 * k) % 256

/-- A `u32` written with endianness `le` (little-endian when `le = true`). -/
def encU32 (le : Bool) (n : Nat) : List Nat :=
  if le then encLE 4 n else (encLE 4 n).reverse

/-- A `u64` written with endianness `le`. -/
def encU64 (le : Bool) (n : Nat) : List Nat :=
  if le then encLE 8 n else (encLE 8 n).reverse

theorem encLE_length (w n : Nat) : (encLE w n).length = w := by
  simp [encLE]

theorem encU32_length (le : Bool) (n : Nat) : (encU32 le n).length = 4 := by
  cases le <;> simp [encU32, encLE_length]

theorem encU64_length (le : Bool) (n : Nat) : (encU64 le n).length = 8 := by
  cases le <;> simp [encU64, encLE_length]

/-! ## Mach-O data model (the parts of the goblin view the signer consumes) -/

/-- Parse context derived from the Mach-O magic: byte order and container
width (`parse_magic_and_ctx`). -/
structure Ctx where
  le : Bool
  is64 : Bool
deriving DecidableEq, Repr

/-- Mach-O file header fields (goblin `Header`); `reserved` is present only in
the 64-bit header. -/
structure MachHeader where
  magic : Nat
  cputype : Nat
  cpusubtype : Nat
  filetype : Nat
  ncmds : Nat
  sizeofcmds : Nat
  flags : Nat
  reserved : Nat
deriving DecidableEq, Repr

/-- Number of bytes `iowrite_with` emits for the header. -/
def headerSize (ctx : Ctx) : Nat := if ctx.is64 then 32 else 28

/-- Serialization of the Mach-O header (goblin `Header` with `IOwrite`):
seven `u32` fields, plus `reserved` for 64-bit files. -/
def serializeHeader (ctx : Ctx) (h : MachHeader) : List Nat :=
  encU32 ctx.le h.magic ++ encU32 ctx.le h.cputype ++ encU32 ctx.le h.cpusubtype ++
    encU32 ctx.le h.filetype ++ encU32 ctx.le h.ncmds ++ encU32 ctx.le h.sizeofcmds ++
    encU32 ctx.le h.flags ++ (if ctx.is64 then encU32 ctx.le h.reserved else [])

theorem serializeHeader_length (ctx : Ctx) (h : MachHeader) :
    (serializeHeader ctx h).length = headerSize ctx := by
  cases hc : ctx.is64 <;>
    simp [serializeHeader, headerSize, encU32_length, hc]

/-- goblin `LinkeditDataCommand`: four `u32` fields. -/
structure LinkeditDataCommand where
  cmd : Nat
  cmdsize : Nat
  dataoff : Nat
  datasize : Nat
deriving DecidableEq, Repr

def serializeLinkeditData (le : Bool) (c : LinkeditDataCommand) : List Nat :=
  (encU32 le c.cmd ++ encU32 le c.cmdsize ++ encU32 le c.dataoff) ++ encU32 le c.datasize

theorem serializeLinkeditData_length (le : Bool) (c : LinkeditDataCommand) :
    (serializeLinkeditData le c).length = 16 := by
  simp [serializeLinkeditData, encU32_length]

/-- goblin `SegmentCommand32`: `cmd`, `cmdsize`, a 16-byte `segname`, then
`vmaddr vmsize fileoff filesize` as `u32` and `maxprot initprot nsects flags`. -/
structure SegmentCommand32 where
  cmd : Nat
  cmdsize : Nat
  segname : List Nat
  vmaddr : Nat
  vmsize : Nat
  fileoff : Nat
  filesize : Nat
  maxprot : Nat
  initprot : Nat
  nsects : Nat
  flags : Nat
deriving DecidableEq, Repr

def serializeSegment32 (le : Bool) (s : SegmentCommand32) : List Nat :=
  (encU32 le s.cmd ++ encU32 le s.cmdsize ++ s.segname ++ encU32 le s.vmaddr ++
    encU32 le s.vmsize ++ encU32 le s.fileoff) ++ encU32 le s.filesize ++
    (encU32 le s.maxprot ++ encU32 le s.initprot ++ encU32 le s.nsects ++ encU32 le s.flags)

theorem serializeSegment32_length (le : Bool) (s : SegmentCommand32)
    (h : s.segname.length = 16) : (serializeSegment32 le s).length = 56 := by
  simp [serializeSegment32, encU32_length, h]

/-- goblin `SegmentCommand64`: like the 32-bit variant with `u64`
`vmaddr vmsize fileoff filesize`. -/
structure SegmentCommand64 where
  cmd : Nat
  cmdsize : Nat
  segname : List Nat
  vmaddr : Nat
  vmsize : Nat
  fileoff : Nat
  filesize : Nat
  maxprot : Nat
  initprot : Nat
  nsects : Nat
  flags : Nat
deriving DecidableEq, Repr

def serializeSegment64 (le : Bool) (s : SegmentCommand64) : List Nat :=
  (encU32 le s.cmd ++ encU32 le s.cmdsize ++ s.segname ++ encU64 le s.vmaddr ++
    encU64 le s.vmsize ++ encU64 le s.fileoff) ++ encU64 le s.filesize ++
    (encU32 le s.maxprot ++ encU32 le s.initprot ++ encU32 le s.nsects ++ encU32 le s.flags)

theorem serializeSegment64_length (le : Bool) (s : SegmentCommand64)
    (h : s.segname.length = 16) : (serializeSegment64 le s).length = 72 := by
  simp [serializeSegment64, encU32_length, encU64_length, h]

/-- The load-command variants `create_macho_with_signature` treats specially;
everything else is `other` (copied verbatim), carrying its `cmdsize`. -/
inductive CommandVariant where
  | codeSignature (c : LinkeditDataCommand)
  | segment32 (s : SegmentCommand32)
  | segment64 (s : SegmentCommand64)
  | other (cmdsize : Nat)
deriving DecidableEq, Repr

/-- `load_command.command.cmdsize()`. -/
def CommandVariant.cmdsize : CommandVariant → Nat
  | .codeSignature c => c.cmdsize
  | .segment32 s => s.cmdsize
  | .segment64 s => s.cmdsize
  | .other n => n

/-- goblin `LoadCommand`: file offset of the command plus the parsed variant. -/
structure LoadCommand where
  offset : Nat
  command : CommandVariant
deriving DecidableEq, Repr

/-- goblin `Segment` view: 16-byte name, file offset/size, and the file-backed
data slice. -/
structure Segment where
  segname : List Nat
  fileoff : Nat
  filesize : Nat
  data : List Nat
deriving DecidableEq, Repr

/-- The bytes of `"__LINKEDIT"`. -/
def segLinkeditBytes : List Nat := [95, 95, 76, 73, 78, 75, 69, 68, 73, 84]

/-- The bytes of `"__PAGEZERO"`. -/
def segPagezeroBytes : List Nat := [95, 95, 80, 65, 71, 69, 90, 69, 82, 79]

/-- `segment.name() == Ok(SEG_LINKEDIT)`: the 16-byte name field truncated at
the first NUL equals `__LINKEDIT`. -/
def isLinkeditName (segname : List Nat) : Bool :=
  segname.takeWhile (fun b => !(b == 0)) == segLinkeditBytes

/-- `segment.name() == Ok(SEG_PAGEZERO)`. -/
def isPagezeroName (segname : List Nat) : Bool :=
  segname.takeWhile (fun b => !(b == 0)) == segPagezeroBytes

/-- The signature location reported by the Mach-O inspector.

Modelled from the spec: `find_signature_data` lives in `macho.rs`, which is
not among the provided sources; spec §4.1 defines its result as carrying
`linkedit_segment_index`, `linkedit_segment_data`, `signature_start_offset`
and `signature_end_offset` (relative to the `__LINKEDIT` data) and
`linkedit_signature_start_offset` (the absolute file offset, the signature
load command's `dataoff`). -/
structure SignatureLocation where
  linkedit_segment_index : Nat
  linkedit_segment_data : List Nat
  signature_start_offset : Nat
  signature_end_offset : Nat
  linkedit_signature_start_offset : Nat
deriving DecidableEq, Repr

/-- The parsed thin Mach-O view consumed by the signer: parse context, header,
load commands, segments, and the inspector's signature report. -/
structure MachO where
  ctx : Ctx
  header : MachHeader
  load_commands : List LoadCommand
  segments : List Segment
  signature : Option SignatureLocation
deriving DecidableEq, Repr

/-- Modelled from the spec: `find_signature_data` (spec §4.1) reports the
signature location present in the parsed view; the offsets reflect the load
command as present in the input, with no validation of contents. -/
def find_signature_data (m : MachO) : Option SignatureLocation :=
  m.signature

/-- `check_signing_capability` (`macho_signing.rs`): reject binaries the
rewriter cannot safely handle. -/
def check_signing_capability (m : MachO) : Except AppleCodesignError Unit :=
  match find_signature_data m with
  | some signature =>
      if signature.linkedit_segment_index ≠ m.segments.length - 1 then
        .error .LinkeditNotLast
      else if signature.signature_end_offset ≠ signature.linkedit_segment_data.length then
        .error .DataAfterSignature
      else
        .ok ()
  | none => .error .BinaryNoCodeSignature

/-! ## The Mach-O rewriter `create_macho_with_signature` -/

/-- Result of writing a Mach-O: the produced bytes, a returned error, or a
panic (the source's `assert!`). -/
inductive WriteResult where
  | ok (bytes : List Nat)
  | err (e : AppleCodesignError)
  | panic
deriving DecidableEq, Repr

/-- The bytes of an `ok` result (`[]` otherwise). -/
def WriteResult.okBytes : WriteResult → List Nat
  | .ok b => b
  | _ => []

/-- Whether a write succeeded. -/
def WriteResult.isOk : WriteResult → Bool
  | .ok _ => true
  | _ => false

/-- The load-command loop of `create_macho_with_signature`: each command's
original bytes are `macho_data[offset..offset+cmdsize]`; the code-signature
command is rewritten with `datasize = |signature_data|` (a `u32`), a
`__LINKEDIT` segment command with `filesize = new_linkedit_segment_size`
(`u32`/`u64`), anything else is copied verbatim; bytes of the command body
past the fixed header are preserved. -/
def writeLoadCommands (d : List Nat) (ctx : Ctx) (sigLen newLESize : Nat)
    (out : List Nat) : List LoadCommand → List Nat
  | [] => out
  | lc :: rest =>
      let orig := (d.drop lc.offset).take lc.command.cmdsize
      let written : List Nat × Nat :=
        match lc.command with
        | .codeSignature c =>
            (serializeLinkeditData ctx.le { c with datasize := sigLen % 2 ^ 32 }, 16)
        | .segment32 s =>
            (serializeSegment32 ctx.le
              (if isLinkeditName s.segname then { s with filesize := newLESize % 2 ^ 32 } else s),
              56)
        | .segment64 s =>
            (serializeSegment64 ctx.le
              (if isLinkeditName s.segname then { s with filesize := newLESize % 2 ^ 64 } else s),
              72)
        | .other _ => (orig, orig.length)
      writeLoadCommands d ctx sigLen newLESize (out ++ written.1 ++ orig.drop written.2) rest

/-- The segment loop of `create_macho_with_signature`: asserts
`fileoff == 0 || fileoff == cursor.position()`, skips `__PAGEZERO`, writes the
`__LINKEDIT` data truncated at the signature start followed by the new
signature, and for other segments writes the data new to the writer. -/
def writeSegments (ex : SignatureLocation) (sig : List Nat)
    (out : List Nat) : List Segment → WriteResult
  | [] => .ok out
  | seg :: rest =>
      if seg.fileoff = 0 ∨ seg.fileoff = out.length then
        if isPagezeroName seg.segname then
          writeSegments ex sig out rest
        else if isLinkeditName seg.segname then
          writeSegments ex sig
            (out ++ ex.linkedit_segment_data.take ex.signature_start_offset ++ sig) rest
        else if seg.fileoff < out.length then
          writeSegments ex sig (out ++ (seg.data.take seg.filesize).drop out.length) rest
        else
          writeSegments ex sig (out ++ seg.data) rest
      else .panic

/-- The bytes one iteration of the load-command loop appends for command
`lc`: the mutated serialization (or the verbatim original bytes) followed by
any command-body bytes past the fixed header. -/
def patchedCmdBytes (d : List Nat) (ctx : Ctx) (sigLen newLESize : Nat)
    (lc : LoadCommand) : List Nat :=
  let orig := (d.drop lc.offset).take lc.command.cmdsize
  match lc.command with
  | .codeSignature c =>
      serializeLinkeditData ctx.le { c with datasize := sigLen % 2 ^ 32 } ++ orig.drop 16
  | .segment32 s =>
      serializeSegment32 ctx.le
        (if isLinkeditName s.segname then { s with filesize := newLESize % 2 ^ 32 } else s) ++
        orig.drop 56
  | .segment64 s =>
      serializeSegment64 ctx.le
        (if isLinkeditName s.segname then { s with filesize := newLESize % 2 ^ 64 } else s) ++
        orig.drop 72
  | .other _ => orig

/-- Concatenation of the per-command bytes of the load-command loop. -/
def patchedCmds (d : List Nat) (ctx : Ctx) (sigLen newLESize : Nat) :
    List LoadCommand → List Nat
  | [] => []
  | lc :: rest =>
      patchedCmdBytes d ctx sigLen newLESize lc ++ patchedCmds d ctx sigLen newLESize rest

/-- Sum of the `cmdsize`s of a command list. -/
def totalCmdSize : List LoadCommand → Nat
  | [] => 0
  | lc :: rest => lc.command.cmdsize + totalCmdSize rest

/-- `create_macho_with_signature(macho_data, macho, signature_data)`
(`macho_signing.rs`): derive a new Mach-O binary with new signature data.
The parse context is the one of the view (the source re-derives it from
`macho_data`, which agrees for parse-consistent inputs). -/
def create_macho_with_signature (macho_data : List Nat) (macho : MachO)
    (signature_data : List Nat) : WriteResult :=
  match find_signature_data macho with
  | none => .err .BinaryNoCodeSignature
  | some existing_signature =>
      match check_signing_capability macho with
      | .error e => .err e
      | .ok () =>
          let new_linkedit_segment_size :=
            existing_signature.signature_start_offset + signature_data.length
          let afterHeader := serializeHeader macho.ctx macho.header
          let afterCommands :=
            writeLoadCommands macho_data macho.ctx signature_data.length
              new_linkedit_segment_size afterHeader macho.load_commands
          writeSegments existing_signature signature_data afterCommands macho.segments

/-! ## Well-formedness of a parsed view against its backing bytes

`machOWF d m` states that the goblin view `m` is parse-consistent with the
raw bytes `d`: the header and the recognized load-command structs serialize
back to the bytes they were parsed from, commands tile the region after the
header, segments tile the file in order, `__LINKEDIT` is last and extends to
the end of the file, and the inspector's signature report agrees with the
view.  These are exactly the facts goblin's parser guarantees. -/

/-- File offsets inside command `lc` that the rewriter mutates: the
`datasize` field of a code-signature command (bytes 12–16 of the command) and
the `filesize` field of a `__LINKEDIT` segment command (bytes 36–40 of a
32-bit, 48–56 of a 64-bit segment command). -/
def InMutatedField (lc : LoadCommand) (i : Nat) : Prop :=
  match lc.command with
  | .codeSignature _ => lc.offset + 12 ≤ i ∧ i < lc.offset + 16
  | .segment32 s => isLinkeditName s.segname = true ∧ lc.offset + 36 ≤ i ∧ i < lc.offset + 40
  | .segment64 s => isLinkeditName s.segname = true ∧ lc.offset + 48 ≤ i ∧ i < lc.offset + 56
  | .other _ => False

instance (lc : LoadCommand) (i : Nat) : Decidable (InMutatedField lc i) := by
  unfold InMutatedField
  match lc.command with
  | .codeSignature _ => exact inferInstance
  | .segment32 _ => exact inferInstance
  | .segment64 _ => exact inferInstance
  | .other _ => exact inferInstance

/-- One command is parse-consistent at offset `off`: it sits at `off`, fits in
the file, and its recognized struct serializes to the bytes it was parsed
from. -/
def cmdWF (d : List Nat) (le : Bool) (off : Nat) (lc : LoadCommand) : Bool :=
  decide (lc.offset = off) && decide (off + lc.command.cmdsize ≤ d.length) &&
  match lc.command with
  | .codeSignature c =>
      decide (16 ≤ c.cmdsize) && decide ((d.drop off).take 16 = serializeLinkeditData le c)
  | .segment32 s =>
      decide (56 ≤ s.cmdsize) && decide (s.segname.length = 16) &&
        decide ((d.drop off).take 56 = serializeSegment32 le s)
  | .segment64 s =>
      decide (72 ≤ s.cmdsize) && decide (s.segname.length = 16) &&
        decide ((d.drop off).take 72 = serializeSegment64 le s)
  | .other _ => true

/-- The load commands tile the byte range starting at `off`. -/
def cmdsWF (d : List Nat) (le : Bool) : Nat → List LoadCommand → Bool
  | _, [] => true
  | off, lc :: rest => cmdWF d le off lc && cmdsWF d le (off + lc.command.cmdsize) rest

/-- The segments, walked with write position `pos`, are parse-consistent and
contiguous, ending in a final `__LINKEDIT` segment that extends to the end of
the file and contains the reported signature region at its tail. -/
def segsWF (d : List Nat) (ex : SignatureLocation) : Nat → List Segment → Bool
  | _, [] => false
  | pos, seg :: rest =>
      decide (seg.fileoff = 0 ∨ seg.fileoff = pos) &&
      if isPagezeroName seg.segname then segsWF d ex pos rest
      else if isLinkeditName seg.segname then
        decide (rest = []) && decide (seg.fileoff = pos) &&
          decide (ex.linkedit_segment_data = seg.data) && decide (seg.data = d.drop pos) &&
          decide (ex.signature_start_offset ≤ seg.data.length) &&
          decide (d.length = pos + seg.data.length) &&
          decide (ex.linkedit_signature_start_offset = pos + ex.signature_start_offset)
      else if seg.fileoff < pos then
        decide (seg.data = d.take seg.filesize) && decide (pos ≤ seg.filesize) &&
          decide (seg.data.length = seg.filesize) && segsWF d ex seg.filesize rest
      else
        decide (seg.data = (d.drop pos).take seg.filesize) &&
          decide (seg.data.length = seg.filesize) && segsWF d ex (pos + seg.data.length) rest

/-- Full parse-consistency of a thin Mach-O view with its backing bytes,
including the facts the capability check verifies. -/
def machOWF (d : List Nat) (m : MachO) : Bool :=
  decide (serializeHeader m.ctx m.header = d.take (headerSize m.ctx)) &&
  decide (headerSize m.ctx ≤ d.length) &&
  cmdsWF d m.ctx.le (headerSize m.ctx) m.load_commands &&
  match m.signature with
  | none => false
  | some ex =>
      decide (ex.linkedit_segment_index = m.segments.length - 1) &&
      decide (ex.signature_end_offset = ex.linkedit_segment_data.length) &&
      segsWF d ex (headerSize m.ctx + totalCmdSize m.load_commands) m.segments

/-! ### Serialization mutation lemmas -/

theorem take_append_length {α : Type} (A B : List α) (n : Nat) (h : A.length = n) :
    (A ++ B).take n = A := by
  subst h; exact List.take_left A B

theorem drop_append_length {α : Type} (A B : List α) (n : Nat) (h : A.length = n) :
    (A ++ B).drop n = B := by
  subst h; exact List.drop_left A B

theorem serializeLinkeditData_take12 (le : Bool) (c : LinkeditDataCommand) :
    (serializeLinkeditData le c).take 12 =
      encU32 le c.cmd ++ encU32 le c.cmdsize ++ encU32 le c.dataoff :=
  take_append_length _ _ _ (by simp [encU32_length])

theorem serializeLinkeditData_set_datasize (le : Bool) (c : LinkeditDataCommand) (x : Nat) :
    serializeLinkeditData le { c with datasize := x } =
      (serializeLinkeditData le c).take 12 ++ encU32 le x := by
  rw [serializeLinkeditData_take12]
  rfl

theorem serializeSegment32_take36 (le : Bool) (s : SegmentCommand32)
    (hn : s.segname.length = 16) :
    (serializeSegment32 le s).take 36 =
      encU32 le s.cmd ++ encU32 le s.cmdsize ++ s.segname ++ encU32 le s.vmaddr ++
        encU32 le s.vmsize ++ encU32 le s.fileoff := by
  unfold serializeSegment32
  rw [List.append_assoc]
  exact take_append_length _ _ _ (by simp [encU32_length, hn])

theorem serializeSegment32_drop40 (le : Bool) (s : SegmentCommand32)
    (hn : s.segname.length = 16) :
    (serializeSegment32 le s).drop 40 =
      encU32 le s.maxprot ++ encU32 le s.initprot ++ encU32 le s.nsects ++ encU32 le s.flags := by
  unfold serializeSegment32
  exact drop_append_length _ _ _ (by simp [encU32_length, hn])

theorem serializeSegment32_set_filesize (le : Bool) (s : SegmentCommand32) (x : Nat)
    (hn : s.segname.length = 16) :
    serializeSegment32 le { s with filesize := x } =
      (serializeSegment32 le s).take 36 ++ encU32 le x ++ (serializeSegment32 le s).drop 40 := by
  rw [serializeSegment32_take36 le s hn, serializeSegment32_drop40 le s hn]
  rfl

theorem serializeSegment64_take48 (le : Bool) (s : SegmentCommand64)
    (hn : s.segname.length = 16) :
    (serializeSegment64 le s).take 48 =
      encU32 le s.cmd ++ encU32 le s.cmdsize ++ s.segname ++ encU64 le s.vmaddr ++
        encU64 le s.vmsize ++ encU64 le s.fileoff := by
  unfold serializeSegment64
  rw [List.append_assoc]
  exact take_append_length _ _ _ (by simp [encU32_length, encU64_length, hn])

theorem serializeSegment64_drop56 (le : Bool) (s : SegmentCommand64)
    (hn : s.segname.length = 16) :
    (serializeSegment64 le s).drop 56 =
      encU32 le s.maxprot ++ encU32 le s.initprot ++ encU32 le s.nsects ++ encU32 le s.flags := by
  unfold serializeSegment64
  exact drop_append_length _ _ _ (by simp [encU32_length, encU64_length, hn])

theorem serializeSegment64_set_filesize (le : Bool) (s : SegmentCommand64) (x : Nat)
    (hn : s.segname.length = 16) :
    serializeSegment64 le { s with filesize := x } =
      (serializeSegment64 le s).take 48 ++ encU64 le x ++ (serializeSegment64 le s).drop 56 := by
  rw [serializeSegment64_take48 le s hn, serializeSegment64_drop56 le s hn]
  rfl

/-! ### Indexing helpers -/

theorem getl {α : Type} (A B : List α) (i : Nat) (h : i < A.length) : (A ++ B)[i]? = A[i]? := by
  simp [List.getElem?_append, h]

theorem getr {α : Type} (A B : List α) (i : Nat) (h : A.length ≤ i) :
    (A ++ B)[i]? = B[i - A.length]? := by
  rw [List.getElem?_append]
  simp [Nat.not_lt.mpr h]

theorem gettake {α : Type} (l : List α) (n i : Nat) (h : i < n) : (l.take n)[i]? = l[i]? := by
  simp [List.getElem?_take, h]

theorem getdrop {α : Type} (l : List α) (n i : Nat) : (l.drop n)[i]? = l[n + i]? := by
  simp [List.getElem?_drop]

theorem lenTakeDrop (d : List Nat) (off k : Nat) (h : off + k ≤ d.length) :
    ((d.drop off).take k).length = k := by
  simp only [List.length_take, List.length_drop]
  omega

/-- `l.take n ++ (l.take m).drop n = l.take m` when `n ≤ m`. -/
theorem take_append_drop_take {α : Type} (l : List α) (n m : Nat) (h : n ≤ m) :
    l.take n ++ (l.take m).drop n = l.take m := by
  have h1 : (l.take m).take n = l.take n := by
    rw [List.take_take, Nat.min_eq_left h]
  calc l.take n ++ (l.take m).drop n = (l.take m).take n ++ (l.take m).drop n := by rw [h1]
    _ = l.take m := List.take_append_drop n (l.take m)

/-- The load-command loop appends exactly the per-command patched bytes. -/
theorem writeLoadCommands_eq (d : List Nat) (ctx : Ctx) (sigLen newLESize : Nat) :
    ∀ (cmds : List LoadCommand) (out : List Nat),
      writeLoadCommands d ctx sigLen newLESize out cmds =
        out ++ patchedCmds d ctx sigLen newLESize cmds := by
  intro cmds
  induction cmds with
  | nil => intro out; simp [writeLoadCommands, patchedCmds]
  | cons lc rest ih =>
      intro out
      rw [writeLoadCommands, patchedCmds, ih]
      cases hv : lc.command with
      | codeSignature c => simp [patchedCmdBytes, hv]
      | segment32 s => simp [patchedCmdBytes, hv]
      | segment64 s => simp [patchedCmdBytes, hv]
      | other n => simp [patchedCmdBytes, hv]

/-! ### Per-command consequences of `cmdWF` -/

theorem drop_take_chain {α : Type} (l : List α) (a b : Nat) (hab : a ≤ b) :
    (l.take b).drop a ++ l.drop b = l.drop a := by
  conv_rhs => rw [← List.take_append_drop b l]
  rw [List.drop_append_eq_append_drop]
  by_cases hc : a ≤ (l.take b).length
  · rw [Nat.sub_eq_zero_of_le hc, List.drop_zero]
  · have hlen : l.length < a := by
      rw [List.length_take] at hc
      omega
    have hnil : l.drop b = [] := by
      rw [List.drop_eq_nil_iff]
      omega
    simp [hnil]

/-- Reading a byte of `A ++ enc ++ C` (a window `[w₁, w₂)` of a slice of `d`
replaced by `enc`) outside the window gives the original byte of `d`. -/
theorem window_patch_outside (d : List Nat) (off sz w₁ w₂ : Nat) (enc : List Nat)
    (h12 : w₁ ≤ w₂) (h2s : w₂ ≤ sz) (hlen : off + sz ≤ d.length)
    (henc : enc.length = w₂ - w₁) (j : Nat) (hj : j < sz) (hout : j < w₁ ∨ w₂ ≤ j) :
    ((d.drop off).take w₁ ++ enc ++ ((d.drop off).take sz).drop w₂)[j]? = d[off + j]? := by
  have l1 : ((d.drop off).take w₁).length = w₁ := lenTakeDrop d off w₁ (by omega)
  rcases hout with hj1 | hj2
  · rw [List.append_assoc, getl _ _ j (by rw [l1]; exact hj1), gettake _ _ _ hj1, getdrop]
  · rw [List.append_assoc, getr _ _ j (by rw [l1]; omega), l1,
      getr _ _ _ (by rw [henc]; omega), henc, getdrop,
      show w₂ + (j - w₁ - (w₂ - w₁)) = j from by omega,
      gettake _ _ _ hj, getdrop]

theorem patchedCmdBytes_cs_shape (d : List Nat) (ctx : Ctx) (a b : Nat) (lc : LoadCommand)
    (c : LinkeditDataCommand) (hv : lc.command = .codeSignature c)
    (hbytes : (d.drop lc.offset).take 16 = serializeLinkeditData ctx.le c) :
    patchedCmdBytes d ctx a b lc =
      (d.drop lc.offset).take 12 ++ encU32 ctx.le (a % 2 ^ 32) ++
        ((d.drop lc.offset).take c.cmdsize).drop 16 := by
  simp only [patchedCmdBytes, hv, CommandVariant.cmdsize]
  rw [serializeLinkeditData_set_datasize, ← hbytes, List.take_take,
    show min 12 16 = 12 from by norm_num]

theorem patchedCmdBytes_seg32_shape (d : List Nat) (ctx : Ctx) (a b : Nat) (lc : LoadCommand)
    (s : SegmentCommand32) (hv : lc.command = .segment32 s)
    (hl : isLinkeditName s.segname = true) (hn : s.segname.length = 16)
    (hsz : 56 ≤ s.cmdsize)
    (hbytes : (d.drop lc.offset).take 56 = serializeSegment32 ctx.le s) :
    patchedCmdBytes d ctx a b lc =
      (d.drop lc.offset).take 36 ++ encU32 ctx.le (b % 2 ^ 32) ++
        ((d.drop lc.offset).take s.cmdsize).drop 40 := by
  simp only [patchedCmdBytes, hv, CommandVariant.cmdsize, hl, if_pos]
  rw [serializeSegment32_set_filesize _ _ _ hn, ← hbytes, List.take_take,
    show min 36 56 = 36 from by norm_num,
    show (d.drop lc.offset).take 56 = ((d.drop lc.offset).take s.cmdsize).take 56 from by
      rw [List.take_take, Nat.min_eq_left hsz],
    List.append_assoc ((d.drop lc.offset).take 36 ++ encU32 ctx.le (b % 2 ^ 32)),
    drop_take_chain _ 40 56 (by omega)]

theorem patchedCmdBytes_seg64_shape (d : List Nat) (ctx : Ctx) (a b : Nat) (lc : LoadCommand)
    (s : SegmentCommand64) (hv : lc.command = .segment64 s)
    (hl : isLinkeditName s.segname = true) (hn : s.segname.length = 16)
    (hsz : 72 ≤ s.cmdsize)
    (hbytes : (d.drop lc.offset).take 72 = serializeSegment64 ctx.le s) :
    patchedCmdBytes d ctx a b lc =
      (d.drop lc.offset).take 48 ++ encU64 ctx.le (b % 2 ^ 64) ++
        ((d.drop lc.offset).take s.cmdsize).drop 56 := by
  simp only [patchedCmdBytes, hv, CommandVariant.cmdsize, hl, if_pos]
  rw [serializeSegment64_set_filesize _ _ _ hn, ← hbytes, List.take_take,
    show min 48 72 = 48 from by norm_num,
    show (d.drop lc.offset).take 72 = ((d.drop lc.offset).take s.cmdsize).take 72 from by
      rw [List.take_take, Nat.min_eq_left hsz],
    List.append_assoc ((d.drop lc.offset).take 48 ++ encU64 ctx.le (b % 2 ^ 64)),
    drop_take_chain _ 56 72 (by omega)]

theorem patchedCmdBytes_seg32_plain_shape (d : List Nat) (ctx : Ctx) (a b : Nat)
    (lc : LoadCommand) (s : SegmentCommand32) (hv : lc.command = .segment32 s)
    (hl : isLinkeditName s.segname = false) (hsz : 56 ≤ s.cmdsize)
    (hbytes : (d.drop lc.offset).take 56 = serializeSegment32 ctx.le s) :
    patchedCmdBytes d ctx a b lc = (d.drop lc.offset).take s.cmdsize := by
  simp only [patchedCmdBytes, hv, CommandVariant.cmdsize, hl]
  rw [if_neg (by simp [hl]), ← hbytes, take_append_drop_take _ _ _ hsz]

theorem patchedCmdBytes_seg64_plain_shape (d : List Nat) (ctx : Ctx) (a b : Nat)
    (lc : LoadCommand) (s : SegmentCommand64) (hv : lc.command = .segment64 s)
    (hl : isLinkeditName s.segname = false) (hsz : 72 ≤ s.cmdsize)
    (hbytes : (d.drop lc.offset).take 72 = serializeSegment64 ctx.le s) :
    patchedCmdBytes d ctx a b lc = (d.drop lc.offset).take s.cmdsize := by
  simp only [patchedCmdBytes, hv, CommandVariant.cmdsize, hl]
  rw [if_neg (by simp [hl]), ← hbytes, take_append_drop_take _ _ _ hsz]

theorem patchedCmdBytes_other_shape (d : List Nat) (ctx : Ctx) (a b : Nat)
    (lc : LoadCommand) (n : Nat) (hv : lc.command = .other n) :
    patchedCmdBytes d ctx a b lc = (d.drop lc.offset).take n := by
  simp only [patchedCmdBytes, hv, CommandVariant.cmdsize]

theorem patchedCmdBytes_length (d : List Nat) (ctx : Ctx) (a b off : Nat) (lc : LoadCommand)
    (h : cmdWF d ctx.le off lc = true) :
    (patchedCmdBytes d ctx a b lc).length = lc.command.cmdsize := by
  cases hv : lc.command with
  | codeSignature c =>
      simp only [cmdWF, hv, Bool.and_eq_true, decide_eq_true_eq] at h
      obtain ⟨⟨hoff, hlen⟩, hsz, hbytes⟩ := h
      simp only [CommandVariant.cmdsize] at hlen ⊢
      rw [patchedCmdBytes_cs_shape d ctx a b lc c hv (hoff ▸ hbytes)]
      simp only [List.length_append, List.length_drop, encU32_length,
        lenTakeDrop d lc.offset 12 (by omega),
        lenTakeDrop d lc.offset c.cmdsize (by omega)]
      omega
  | segment32 s =>
      simp only [cmdWF, hv, Bool.and_eq_true, decide_eq_true_eq] at h
      obtain ⟨⟨hoff, hlen⟩, ⟨hsz, hn⟩, hbytes⟩ := h
      simp only [CommandVariant.cmdsize] at hlen ⊢
      by_cases hl : isLinkeditName s.segname
      · rw [patchedCmdBytes_seg32_shape d ctx a b lc s hv hl hn hsz (hoff ▸ hbytes)]
        simp only [List.length_append, List.length_drop, encU32_length,
          lenTakeDrop d lc.offset 36 (by omega),
          lenTakeDrop d lc.offset s.cmdsize (by omega)]
        omega
      · rw [patchedCmdBytes_seg32_plain_shape d ctx a b lc s hv (by simpa using hl) hsz
          (hoff ▸ hbytes)]
        exact lenTakeDrop d lc.offset s.cmdsize (by omega)
  | segment64 s =>
      simp only [cmdWF, hv, Bool.and_eq_true, decide_eq_true_eq] at h
      obtain ⟨⟨hoff, hlen⟩, ⟨hsz, hn⟩, hbytes⟩ := h
      simp only [CommandVariant.cmdsize] at hlen ⊢
      by_cases hl : isLinkeditName s.segname
      · rw [patchedCmdBytes_seg64_shape d ctx a b lc s hv hl hn hsz (hoff ▸ hbytes)]
        simp only [List.length_append, List.length_drop, encU64_length,
          lenTakeDrop d lc.offset 48 (by omega),
          lenTakeDrop d lc.offset s.cmdsize (by omega)]
        omega
      · rw [patchedCmdBytes_seg64_plain_shape d ctx a b lc s hv (by simpa using hl) hsz
          (hoff ▸ hbytes)]
        exact lenTakeDrop d lc.offset s.cmdsize (by omega)
  | other n =>
      simp only [cmdWF, hv, Bool.and_eq_true, decide_eq_true_eq] at h
      obtain ⟨⟨hoff, hlen⟩, -⟩ := h
      simp only [CommandVariant.cmdsize] at hlen ⊢
      rw [patchedCmdBytes_other_shape d ctx a b lc n hv]
      exact lenTakeDrop d lc.offset n (by omega)

theorem patchedCmdBytes_outside (d : List Nat) (ctx : Ctx) (a b off : Nat) (lc : LoadCommand)
    (h : cmdWF d ctx.le off lc = true) (j : Nat) (hj : j < lc.command.cmdsize)
    (hmut : ¬ InMutatedField lc (lc.offset + j)) :
    (patchedCmdBytes d ctx a b lc)[j]? = d[lc.offset + j]? := by
  cases hv : lc.command with
  | codeSignature c =>
      simp only [cmdWF, hv, Bool.and_eq_true, decide_eq_true_eq] at h
      obtain ⟨⟨hoff, hlen⟩, hsz, hbytes⟩ := h
      rw [hv] at hj
      simp only [CommandVariant.cmdsize] at hlen hj
      simp only [InMutatedField, hv] at hmut
      rw [patchedCmdBytes_cs_shape d ctx a b lc c hv (hoff ▸ hbytes)]
      exact window_patch_outside d lc.offset c.cmdsize 12 16 _ (by omega) (by omega)
        (by omega) (by rw [encU32_length]) j hj (by omega)
  | segment32 s =>
      simp only [cmdWF, hv, Bool.and_eq_true, decide_eq_true_eq] at h
      obtain ⟨⟨hoff, hlen⟩, ⟨hsz, hn⟩, hbytes⟩ := h
      rw [hv] at hj
      simp only [CommandVariant.cmdsize] at hlen hj
      simp only [InMutatedField, hv] at hmut
      by_cases hl : isLinkeditName s.segname
      · rw [patchedCmdBytes_seg32_shape d ctx a b lc s hv hl hn hsz (hoff ▸ hbytes)]
        exact window_patch_outside d lc.offset s.cmdsize 36 40 _ (by omega) (by omega)
          (by omega) (by rw [encU32_length]) j hj
          (by
            by_contra hc
            push_neg at hc
            exact hmut ⟨hl, by omega, by omega⟩)
      · rw [patchedCmdBytes_seg32_plain_shape d ctx a b lc s hv (by simpa using hl) hsz
          (hoff ▸ hbytes), gettake _ _ _ hj, getdrop]
  | segment64 s =>
      simp only [cmdWF, hv, Bool.and_eq_true, decide_eq_true_eq] at h
      obtain ⟨⟨hoff, hlen⟩, ⟨hsz, hn⟩, hbytes⟩ := h
      rw [hv] at hj
      simp only [CommandVariant.cmdsize] at hlen hj
      simp only [InMutatedField, hv] at hmut
      by_cases hl : isLinkeditName s.segname
      · rw [patchedCmdBytes_seg64_shape d ctx a b lc s hv hl hn hsz (hoff ▸ hbytes)]
        exact window_patch_outside d lc.offset s.cmdsize 48 56 _ (by omega) (by omega)
          (by omega) (by rw [encU64_length]) j hj
          (by
            by_contra hc
            push_neg at hc
            exact hmut ⟨hl, by omega, by omega⟩)
      · rw [patchedCmdBytes_seg64_plain_shape d ctx a b lc s hv (by simpa using hl) hsz
          (hoff ▸ hbytes), gettake _ _ _ hj, getdrop]
  | other n =>
      simp only [cmdWF, hv, Bool.and_eq_true, decide_eq_true_eq] at h
      obtain ⟨⟨hoff, hlen⟩, -⟩ := h
      rw [hv] at hj
      simp only [CommandVariant.cmdsize] at hlen hj
      rw [patchedCmdBytes_other_shape d ctx a b lc n hv, gettake _ _ _ hj, getdrop]



theorem patchedCmdBytes_cs_field (d : List Nat) (ctx : Ctx) (a b off : Nat) (lc : LoadCommand)
    (c : LinkeditDataCommand) (hv : lc.command = .codeSignature c)
    (h : cmdWF d ctx.le off lc = true) :
    ((patchedCmdBytes d ctx a b lc).drop 12).take 4 = encU32 ctx.le (a % 2 ^ 32) := by
  simp only [cmdWF, hv, Bool.and_eq_true, decide_eq_true_eq] at h
  obtain ⟨⟨hoff, hlen⟩, hsz, hbytes⟩ := h
  simp only [CommandVariant.cmdsize] at hlen
  rw [patchedCmdBytes_cs_shape d ctx a b lc c hv (hoff ▸ hbytes), List.append_assoc,
    drop_append_length _ _ _ (lenTakeDrop d lc.offset 12 (by omega)),
    take_append_length _ _ _ (encU32_length _ _)]

theorem patchedCmdBytes_seg32_field (d : List Nat) (ctx : Ctx) (a b off : Nat)
    (lc : LoadCommand) (s : SegmentCommand32) (hv : lc.command = .segment32 s)
    (hl : isLinkeditName s.segname = true) (h : cmdWF d ctx.le off lc = true) :
    ((patchedCmdBytes d ctx a b lc).drop 36).take 4 = encU32 ctx.le (b % 2 ^ 32) := by
  simp only [cmdWF, hv, Bool.and_eq_true, decide_eq_true_eq] at h
  obtain ⟨⟨hoff, hlen⟩, ⟨hsz, hn⟩, hbytes⟩ := h
  simp only [CommandVariant.cmdsize] at hlen
  rw [patchedCmdBytes_seg32_shape d ctx a b lc s hv hl hn hsz (hoff ▸ hbytes),
    List.append_assoc,
    drop_append_length _ _ _ (lenTakeDrop d lc.offset 36 (by omega)),
    take_append_length _ _ _ (encU32_length _ _)]

theorem patchedCmdBytes_seg64_field (d : List Nat) (ctx : Ctx) (a b off : Nat)
    (lc : LoadCommand) (s : SegmentCommand64) (hv : lc.command = .segment64 s)
    (hl : isLinkeditName s.segname = true) (h : cmdWF d ctx.le off lc = true) :
    ((patchedCmdBytes d ctx a b lc).drop 48).take 8 = encU64 ctx.le (b % 2 ^ 64) := by
  simp only [cmdWF, hv, Bool.and_eq_true, decide_eq_true_eq] at h
  obtain ⟨⟨hoff, hlen⟩, ⟨hsz, hn⟩, hbytes⟩ := h
  simp only [CommandVariant.cmdsize] at hlen
  rw [patchedCmdBytes_seg64_shape d ctx a b lc s hv hl hn hsz (hoff ▸ hbytes),
    List.append_assoc,
    drop_append_length _ _ _ (lenTakeDrop d lc.offset 48 (by omega)),
    take_append_length _ _ _ (encU64_length _ _)]

/-! ### The command list as a whole -/

theorem cmdsWF_mem_bounds (d : List Nat) (le : Bool) :
    ∀ (cmds : List LoadCommand) (off : Nat), cmdsWF d le off cmds = true →
      ∀ lc ∈ cmds, off ≤ lc.offset ∧
        lc.offset + lc.command.cmdsize ≤ off + totalCmdSize cmds := by
  intro cmds
  induction cmds with
  | nil => intro off _ lc hmem; cases hmem
  | cons hd rest ih =>
      intro off h lc hmem
      rw [cmdsWF, Bool.and_eq_true] at h
      obtain ⟨hhd, hrest⟩ := h
      have hoff : hd.offset = off := by
        rcases hv : hd.command <;>
          · simp only [cmdWF, hv, Bool.and_eq_true, decide_eq_true_eq] at hhd
            exact hhd.1.1
      rcases List.mem_cons.mp hmem with heq | hmem
      · subst heq
        simp only [totalCmdSize]
        omega
      · have := ih (off + hd.command.cmdsize) hrest lc hmem
        simp only [totalCmdSize]
        omega

theorem patchedCmds_length (d : List Nat) (ctx : Ctx) (a b : Nat) :
    ∀ (cmds : List LoadCommand) (off : Nat), cmdsWF d ctx.le off cmds = true →
      (patchedCmds d ctx a b cmds).length = totalCmdSize cmds := by
  intro cmds
  induction cmds with
  | nil => intro off _; simp [patchedCmds, totalCmdSize]
  | cons hd rest ih =>
      intro off h
      rw [cmdsWF, Bool.and_eq_true] at h
      obtain ⟨hhd, hrest⟩ := h
      rw [patchedCmds, totalCmdSize, List.length_append,
        patchedCmdBytes_length d ctx a b off hd hhd, ih (off + hd.command.cmdsize) hrest]

theorem patchedCmds_outside (d : List Nat) (ctx : Ctx) (a b : Nat) :
    ∀ (cmds : List LoadCommand) (off : Nat), cmdsWF d ctx.le off cmds = true →
      ∀ j, j < totalCmdSize cmds →
        (∀ lc ∈ cmds, ¬ InMutatedField lc (off + j)) →
        (patchedCmds d ctx a b cmds)[j]? = d[off + j]? := by
  intro cmds
  induction cmds with
  | nil => intro off _ j hj _; simp [totalCmdSize] at hj
  | cons hd rest ih =>
      intro off h j hj hmut
      rw [cmdsWF, Bool.and_eq_true] at h
      obtain ⟨hhd, hrest⟩ := h
      have hoff : hd.offset = off := by
        rcases hv : hd.command <;>
          · simp only [cmdWF, hv, Bool.and_eq_true, decide_eq_true_eq] at hhd
            exact hhd.1.1
      have hlenhd : (patchedCmdBytes d ctx a b hd).length = hd.command.cmdsize :=
        patchedCmdBytes_length d ctx a b off hd hhd
      rw [totalCmdSize] at hj
      rw [patchedCmds]
      by_cases hcase : j < hd.command.cmdsize
      · rw [getl _ _ j (by rw [hlenhd]; exact hcase)]
        have := patchedCmdBytes_outside d ctx a b off hd hhd j hcase
          (by rw [hoff]; exact hmut hd (by simp))
        rw [hoff] at this
        exact this
      · rw [getr _ _ j (by rw [hlenhd]; omega), hlenhd]
        have := ih (off + hd.command.cmdsize) hrest (j - hd.command.cmdsize) (by omega)
          (fun lc hm => by
            have := hmut lc (by simp [hm])
            rw [show off + hd.command.cmdsize + (j - hd.command.cmdsize) = off + j from by
              omega]
            exact this)
        rw [this, show off + hd.command.cmdsize + (j - hd.command.cmdsize) = off + j from by
          omega]

/-- Lifts a per-command window-content fact to the concatenated command
bytes. -/
theorem patchedCmds_window (d : List Nat) (ctx : Ctx) (a b : Nat) :
    ∀ (cmds : List LoadCommand) (off : Nat), cmdsWF d ctx.le off cmds = true →
      ∀ lc ∈ cmds, ∀ (w k : Nat) (enc : List Nat),
        ((patchedCmdBytes d ctx a b lc).drop w).take k = enc →
        w + k ≤ lc.command.cmdsize →
        ((patchedCmds d ctx a b cmds).drop (lc.offset - off + w)).take k = enc := by
  intro cmds
  induction cmds with
  | nil => intro off _ lc hmem; cases hmem
  | cons hd rest ih =>
      intro off h lc hmem w k enc hfield hwk
      rw [cmdsWF, Bool.and_eq_true] at h
      obtain ⟨hhd, hrest⟩ := h
      have hoff : hd.offset = off := by
        rcases hv : hd.command <;>
          · simp only [cmdWF, hv, Bool.and_eq_true, decide_eq_true_eq] at hhd
            exact hhd.1.1
      have hlenhd : (patchedCmdBytes d ctx a b hd).length = hd.command.cmdsize :=
        patchedCmdBytes_length d ctx a b off hd hhd
      rw [patchedCmds]
      rcases List.mem_cons.mp hmem with heq | hmem
      · subst heq
        rw [hoff, Nat.sub_self, Nat.zero_add, List.drop_append_eq_append_drop,
          Nat.sub_eq_zero_of_le (by omega : w ≤ (patchedCmdBytes d ctx a b lc).length),
          List.drop_zero,
          List.take_append_of_le_length (by rw [List.length_drop, hlenhd]; omega), hfield]
      · have hbnd := cmdsWF_mem_bounds d ctx.le rest (off + hd.command.cmdsize) hrest lc hmem
        rw [List.drop_append_eq_append_drop,
          show (patchedCmdBytes d ctx a b hd).drop (lc.offset - off + w) = [] from by
            rw [List.drop_eq_nil_iff, hlenhd]; omega,
          List.nil_append, hlenhd,
          show lc.offset - off + w - hd.command.cmdsize =
            lc.offset - (off + hd.command.cmdsize) + w from by omega]
        exact ih (off + hd.command.cmdsize) hrest lc hmem w k enc hfield hwk

/-! ### The segment loop -/

/-- `(l.drop p).take (x - p) ++ (l.drop q).take (x - q) = (l.drop p).take (x - p)`
composition: consecutive slices of `l` concatenate. -/
theorem slice_glue (l : List Nat) (p q x : Nat) (hpq : p ≤ q) (hqx : q ≤ x) :
    (l.drop p).take (q - p) ++ (l.drop q).take (x - q) = (l.drop p).take (x - p) := by
  rw [show x - p = (q - p) + (x - q) from by omega, List.take_add]
  congr 1
  rw [List.drop_drop, show p + (q - p) = q from by omega]

theorem writeSegments_run (d : List Nat) (ex : SignatureLocation) (sig : List Nat) :
    ∀ (segs : List Segment) (pos : Nat), segsWF d ex pos segs = true →
      pos ≤ ex.linkedit_signature_start_offset ∧
      ex.linkedit_signature_start_offset ≤ d.length ∧
      ∀ out : List Nat, out.length = pos →
        writeSegments ex sig out segs =
          .ok (out ++ (d.drop pos).take (ex.linkedit_signature_start_offset - pos) ++ sig) := by
  intro segs
  induction segs with
  | nil => intro pos h; simp [segsWF] at h
  | cons seg rest ih =>
      intro pos h
      rw [segsWF, Bool.and_eq_true, decide_eq_true_eq] at h
      obtain ⟨hassert, hbranch⟩ := h
      by_cases hpz : isPagezeroName seg.segname
      · rw [if_pos hpz] at hbranch
        obtain ⟨h1, h2, hrun⟩ := ih pos hbranch
        refine ⟨h1, h2, ?_⟩
        intro out hout
        rw [writeSegments, if_pos (by rw [hout]; exact hassert), if_pos hpz]
        exact hrun out hout
      · rw [if_neg hpz] at hbranch
        by_cases hle : isLinkeditName seg.segname
        · rw [if_pos hle, Bool.and_eq_true, Bool.and_eq_true, Bool.and_eq_true,
            Bool.and_eq_true, Bool.and_eq_true, Bool.and_eq_true] at hbranch
          simp only [decide_eq_true_eq] at hbranch
          obtain ⟨⟨⟨⟨⟨⟨hrest0, hfo⟩, hexdata⟩, hdata⟩, hstart⟩, hdlen⟩, habs⟩ := hbranch
          have hdl : seg.data.length = d.length - pos := by
            rw [hdata, List.length_drop]
          refine ⟨by omega, by omega, ?_⟩
          intro out hout
          rw [writeSegments, if_pos (by rw [hout]; exact hassert), if_neg (by simp [hpz]),
            if_pos hle, hrest0, writeSegments]
          rw [hexdata, hdata, show ex.linkedit_signature_start_offset - pos =
            ex.signature_start_offset from by omega]
        · rw [if_neg hle] at hbranch
          by_cases hovl : seg.fileoff < pos
          · rw [if_pos hovl, Bool.and_eq_true, Bool.and_eq_true, Bool.and_eq_true] at hbranch
            simp only [decide_eq_true_eq] at hbranch
            obtain ⟨⟨⟨hdata, hposle⟩, hdlen⟩, hrest⟩ := hbranch
            obtain ⟨h1, h2, hrun⟩ := ih seg.filesize hrest
            refine ⟨by omega, h2, ?_⟩
            intro out hout
            rw [writeSegments, if_pos (by rw [hout]; exact hassert), if_neg (by simp [hpz]),
              if_neg (by simp [hle]), if_pos (by rw [hout]; exact hovl)]
            have htk : seg.data.take seg.filesize = seg.data := by
              conv_lhs => rw [← hdlen]
              exact List.take_length seg.data
            have happ : (seg.data.take seg.filesize).drop out.length =
                (d.drop pos).take (seg.filesize - pos) := by
              rw [htk, hout, hdata, List.drop_take]
            rw [happ]
            have hlen' : (out ++ (d.drop pos).take (seg.filesize - pos)).length =
                seg.filesize := by
              rw [List.length_append, hout, List.length_take, List.length_drop]
              have hx : (d.take seg.filesize).length = seg.filesize := by
                rw [← hdata, hdlen]
              rw [List.length_take] at hx
              omega
            rw [hrun _ hlen']
            have hmid : (d.drop pos).take (seg.filesize - pos) ++
                (d.drop seg.filesize).take
                  (ex.linkedit_signature_start_offset - seg.filesize) =
                (d.drop pos).take (ex.linkedit_signature_start_offset - pos) :=
              slice_glue d pos seg.filesize ex.linkedit_signature_start_offset hposle h1
            rw [show (out ++ (d.drop pos).take (seg.filesize - pos)) ++
                (d.drop seg.filesize).take
                  (ex.linkedit_signature_start_offset - seg.filesize) ++ sig =
                out ++ ((d.drop pos).take (seg.filesize - pos) ++
                  (d.drop seg.filesize).take
                    (ex.linkedit_signature_start_offset - seg.filesize)) ++ sig from by
              simp [List.append_assoc], hmid]
          · rw [if_neg hovl, Bool.and_eq_true, Bool.and_eq_true] at hbranch
            simp only [decide_eq_true_eq] at hbranch
            obtain ⟨⟨hdata, hdlen⟩, hrest⟩ := hbranch
            obtain ⟨h1, h2, hrun⟩ := ih (pos + seg.data.length) hrest
            refine ⟨by omega, h2, ?_⟩
            intro out hout
            rw [writeSegments, if_pos (by rw [hout]; exact hassert), if_neg (by simp [hpz]),
              if_neg (by simp [hle]), if_neg (by rw [hout]; exact hovl)]
            rw [hrun (out ++ seg.data) (by rw [List.length_append, hout])]
            have hdata' : seg.data = (d.drop pos).take (pos + seg.data.length - pos) := by
              rw [show pos + seg.data.length - pos = seg.data.length from by omega,
                show seg.data.length = seg.filesize from hdlen, hdata]
            have hmid : seg.data ++
                (d.drop (pos + seg.data.length)).take
                  (ex.linkedit_signature_start_offset - (pos + seg.data.length)) =
                (d.drop pos).take (ex.linkedit_signature_start_offset - pos) := by
              nth_rewrite 1 [hdata']
              exact slice_glue d pos (pos + seg.data.length)
                ex.linkedit_signature_start_offset (by omega) h1
            rw [show (out ++ seg.data) ++
                (d.drop (pos + seg.data.length)).take
                  (ex.linkedit_signature_start_offset - (pos + seg.data.length)) ++ sig =
                out ++ (seg.data ++
                  (d.drop (pos + seg.data.length)).take
                    (ex.linkedit_signature_start_offset - (pos + seg.data.length))) ++ sig from by
              simp [List.append_assoc], hmid]

/-! ### The rewriter as a whole -/

theorem cmdsWF_mem_cmdWF (d : List Nat) (le : Bool) :
    ∀ (cmds : List LoadCommand) (off : Nat), cmdsWF d le off cmds = true →
      ∀ lc ∈ cmds, ∃ o, cmdWF d le o lc = true := by
  intro cmds
  induction cmds with
  | nil => intro off _ lc hmem; cases hmem
  | cons hd rest ih =>
      intro off h lc hmem
      rw [cmdsWF, Bool.and_eq_true] at h
      obtain ⟨hhd, hrest⟩ := h
      rcases List.mem_cons.mp hmem with heq | hmem
      · exact ⟨off, heq ▸ hhd⟩
      · exact ih (off + hd.command.cmdsize) hrest lc hmem

/-- Extracts `16/56/72 ≤ cmdsize` for the recognized variants from `cmdWF`. -/
theorem cmdWF_cmdsize_lb (d : List Nat) (le : Bool) (o : Nat) (lc : LoadCommand)
    (h : cmdWF d le o lc = true) :
    (∀ c, lc.command = .codeSignature c → 16 ≤ c.cmdsize) ∧
    (∀ s, lc.command = .segment32 s → 56 ≤ s.cmdsize) ∧
    (∀ s, lc.command = .segment64 s → 72 ≤ s.cmdsize) := by
  refine ⟨fun c hv => ?_, fun s hv => ?_, fun s hv => ?_⟩ <;>
    · simp only [cmdWF, hv, Bool.and_eq_true, decide_eq_true_eq] at h
      first
      | exact h.2.1
      | exact h.2.1.1

/-- Lifts a command-window content fact through the header prefix and the
suffix of the output. -/
theorem out_window (d : List Nat) (ctx : Ctx) (a b : Nat) (cmds : List LoadCommand)
    (off : Nat) (hcmds : cmdsWF d ctx.le off cmds = true) (H R : List Nat)
    (hH : H.length = off) (lc : LoadCommand) (hmem : lc ∈ cmds) (w k : Nat) (enc : List Nat)
    (hfield : ((patchedCmdBytes d ctx a b lc).drop w).take k = enc)
    (hwk : w + k ≤ lc.command.cmdsize) :
    ((H ++ (patchedCmds d ctx a b cmds ++ R)).drop (lc.offset + w)).take k = enc := by
  have hbnd := cmdsWF_mem_bounds d ctx.le cmds off hcmds lc hmem
  have hlenP := patchedCmds_length d ctx a b cmds off hcmds
  have hwin := patchedCmds_window d ctx a b cmds off hcmds lc hmem w k enc hfield hwk
  rw [List.drop_append_eq_append_drop,
    show H.drop (lc.offset + w) = [] from by rw [List.drop_eq_nil_iff, hH]; omega,
    List.nil_append, hH,
    show lc.offset + w - off = lc.offset - off + w from by omega,
    List.drop_append_eq_append_drop,
    List.take_append_of_le_length (by rw [List.length_drop, hlenP]; omega), hwin]

/-- The full rewriter run on a parse-consistent view: header, patched load
commands, the untouched bytes up to the signature start, then the new
signature. -/
theorem create_macho_run (d : List Nat) (m : MachO) (sig : List Nat)
    (ex : SignatureLocation) (hex : m.signature = some ex) (hwf : machOWF d m = true) :
    create_macho_with_signature d m sig =
      .ok (serializeHeader m.ctx m.header ++
        patchedCmds d m.ctx sig.length (ex.signature_start_offset + sig.length)
          m.load_commands ++
        (d.drop (headerSize m.ctx + totalCmdSize m.load_commands)).take
          (ex.linkedit_signature_start_offset -
            (headerSize m.ctx + totalCmdSize m.load_commands)) ++ sig) ∧
      headerSize m.ctx + totalCmdSize m.load_commands ≤
        ex.linkedit_signature_start_offset ∧
      ex.linkedit_signature_start_offset ≤ d.length := by
  simp only [machOWF, hex, Bool.and_eq_true, decide_eq_true_eq] at hwf
  obtain ⟨⟨⟨hhdr, hhsz⟩, hcmds⟩, ⟨hidx, hend⟩, hsegs⟩ := hwf
  obtain ⟨h1, h2, hrun⟩ := writeSegments_run d ex sig m.segments
    (headerSize m.ctx + totalCmdSize m.load_commands) hsegs
  refine ⟨?_, h1, h2⟩
  have hcheck : check_signing_capability m = .ok () := by
    simp only [check_signing_capability, find_signature_data, hex]
    rw [if_neg (fun hc => hc hidx), if_neg (fun hc => hc hend)]
  simp only [create_macho_with_signature, find_signature_data, hex, hcheck]
  rw [writeLoadCommands_eq]
  exact hrun _ (by
    rw [List.length_append, serializeHeader_length,
      patchedCmds_length d m.ctx sig.length (ex.signature_start_offset + sig.length)
        m.load_commands (headerSize m.ctx) hcmds])

/-- C1: for every input Mach-O that passes the signing capability check (and
is parse-consistent with its backing bytes, with no size-field overflow),
`create_macho_with_signature` returns a buffer equal to the input at every
offset except the `datasize` field of the code-signature load command (which
becomes `|new_signature_bytes|`), the `filesize` field of the `__LINKEDIT`
segment load command (which becomes
`signature_start_offset_within_linkedit + |new_signature_bytes|`), and the
signature region at the tail of `__LINKEDIT` (which becomes the new
signature); nothing else is reordered, resized, or relocated. -/
theorem create_macho_layout (d : List Nat) (m : MachO) (sig : List Nat)
    (ex : SignatureLocation) (hex : m.signature = some ex) (hwf : machOWF d m = true)
    (hsig32 : sig.length < 2 ^ 32)
    (hle32 : ex.signature_start_offset + sig.length < 2 ^ 32) :
    ∃ out, create_macho_with_signature d m sig = .ok out ∧
      out.length = ex.linkedit_signature_start_offset + sig.length ∧
      (∀ i, i < ex.linkedit_signature_start_offset →
        (∀ lc ∈ m.load_commands, ¬ InMutatedField lc i) → out[i]? = d[i]?) ∧
      out.drop ex.linkedit_signature_start_offset = sig ∧
      (∀ lc ∈ m.load_commands, ∀ c, lc.command = .codeSignature c →
        (out.drop (lc.offset + 12)).take 4 = encU32 m.ctx.le sig.length) ∧
      (∀ lc ∈ m.load_commands, ∀ s, lc.command = .segment64 s →
        isLinkeditName s.segname = true →
        (out.drop (lc.offset + 48)).take 8 =
          encU64 m.ctx.le (ex.signature_start_offset + sig.length)) ∧
      (∀ lc ∈ m.load_commands, ∀ s, lc.command = .segment32 s →
        isLinkeditName s.segname = true →
        (out.drop (lc.offset + 36)).take 4 =
          encU32 m.ctx.le (ex.signature_start_offset + sig.length)) := by
  obtain ⟨hok, hpos, hdlen⟩ := create_macho_run d m sig ex hex hwf
  have hwf' := hwf
  simp only [machOWF, hex, Bool.and_eq_true, decide_eq_true_eq] at hwf'
  obtain ⟨⟨⟨hhdr, hhsz⟩, hcmds⟩, ⟨hidx, hend⟩, hsegs⟩ := hwf'
  set hs := headerSize m.ctx with hhs
  set T := totalCmdSize m.load_commands with hT
  set sa := ex.linkedit_signature_start_offset with hsa
  set P := patchedCmds d m.ctx sig.length (ex.signature_start_offset + sig.length)
    m.load_commands with hP
  set H := serializeHeader m.ctx m.header with hHdef
  set Mid := (d.drop (hs + T)).take (sa - (hs + T)) with hMid
  have hHlen : H.length = hs := serializeHeader_length m.ctx m.header
  have hPlen : P.length = T :=
    patchedCmds_length d m.ctx sig.length (ex.signature_start_offset + sig.length)
      m.load_commands hs hcmds
  have hMidlen : Mid.length = sa - (hs + T) := by
    rw [hMid, List.length_take, List.length_drop]
    omega
  refine ⟨H ++ P ++ Mid ++ sig, hok, ?_, ?_, ?_, ?_, ?_, ?_⟩
  · simp only [List.length_append, hHlen, hPlen, hMidlen]
    omega
  · intro i hi hmut
    have hform : H ++ P ++ Mid ++ sig = H ++ (P ++ (Mid ++ sig)) := by
      simp [List.append_assoc]
    rw [hform]
    by_cases hcase1 : i < hs
    · rw [getl _ _ i (by rw [hHlen]; exact hcase1), hhdr, gettake _ _ _ hcase1]
    · rw [getr _ _ i (by rw [hHlen]; omega), hHlen]
      by_cases hcase2 : i - hs < T
      · rw [getl _ _ _ (by rw [hPlen]; exact hcase2)]
        have := patchedCmds_outside d m.ctx sig.length
          (ex.signature_start_offset + sig.length) m.load_commands hs hcmds (i - hs) hcase2
          (fun lc hm => by
            rw [show hs + (i - hs) = i from by omega]
            exact hmut lc hm)
        rw [this, show hs + (i - hs) = i from by omega]
      · rw [getr _ _ _ (by rw [hPlen]; omega), hPlen,
          getl _ _ _ (by rw [hMidlen]; omega), hMid,
          gettake _ _ _ (by omega), getdrop,
          show hs + T + (i - hs - T) = i from by omega]
  · rw [show H ++ P ++ Mid ++ sig = (H ++ P ++ Mid) ++ sig from by simp [List.append_assoc]]
    exact drop_append_length _ _ _ (by
      simp only [List.length_append, hHlen, hPlen, hMidlen]
      omega)
  · intro lc hmem c hv
    obtain ⟨o, hcw⟩ := cmdsWF_mem_cmdWF d m.ctx.le m.load_commands hs hcmds lc hmem
    have h16 := (cmdWF_cmdsize_lb d m.ctx.le o lc hcw).1 c hv
    have hfield := patchedCmdBytes_cs_field d m.ctx sig.length
      (ex.signature_start_offset + sig.length) o lc c hv hcw
    rw [show H ++ P ++ Mid ++ sig = H ++ (P ++ (Mid ++ sig)) from by
      simp [List.append_assoc]]
    rw [out_window d m.ctx sig.length (ex.signature_start_offset + sig.length)
      m.load_commands hs hcmds H (Mid ++ sig) hHlen lc hmem 12 4 _ hfield
      (by rw [hv]; simp only [CommandVariant.cmdsize]; omega)]
    rw [Nat.mod_eq_of_lt hsig32]
  · intro lc hmem s hv hl
    obtain ⟨o, hcw⟩ := cmdsWF_mem_cmdWF d m.ctx.le m.load_commands hs hcmds lc hmem
    have h72 := (cmdWF_cmdsize_lb d m.ctx.le o lc hcw).2.2 s hv
    have hfield := patchedCmdBytes_seg64_field d m.ctx sig.length
      (ex.signature_start_offset + sig.length) o lc s hv hl hcw
    rw [show H ++ P ++ Mid ++ sig = H ++ (P ++ (Mid ++ sig)) from by
      simp [List.append_assoc]]
    rw [out_window d m.ctx sig.length (ex.signature_start_offset + sig.length)
      m.load_commands hs hcmds H (Mid ++ sig) hHlen lc hmem 48 8 _ hfield
      (by rw [hv]; simp only [CommandVariant.cmdsize]; omega)]
    rw [Nat.mod_eq_of_lt (by omega : ex.signature_start_offset + sig.length < 2 ^ 64)]
  · intro lc hmem s hv hl
    obtain ⟨o, hcw⟩ := cmdsWF_mem_cmdWF d m.ctx.le m.load_commands hs hcmds lc hmem
    have h56 := (cmdWF_cmdsize_lb d m.ctx.le o lc hcw).2.1 s hv
    have hfield := patchedCmdBytes_seg32_field d m.ctx sig.length
      (ex.signature_start_offset + sig.length) o lc s hv hl hcw
    rw [show H ++ P ++ Mid ++ sig = H ++ (P ++ (Mid ++ sig)) from by
      simp [List.append_assoc]]
    rw [out_window d m.ctx sig.length (ex.signature_start_offset + sig.length)
      m.load_commands hs hcmds H (Mid ++ sig) hHlen lc hmem 36 4 _ hfield
      (by rw [hv]; simp only [CommandVariant.cmdsize]; omega)]
    rw [Nat.mod_eq_of_lt hle32]

/-! ### A concrete signable Mach-O used by the witnesses -/

/-- 64-bit little-endian context. -/
def ctx0 : Ctx := ⟨true, true⟩

/-- A `__TEXT` segment command covering the header and load commands. -/
def textCmd : SegmentCommand64 :=
  { cmd := 25, cmdsize := 72, segname := [95, 95, 84, 69, 88, 84] ++ List.replicate 10 0,
    vmaddr := 0, vmsize := 4096, fileoff := 0, filesize := 192, maxprot := 7, initprot := 5,
    nsects := 0, flags := 0 }

/-- The `__LINKEDIT` segment command of the example. -/
def linkeditCmd : SegmentCommand64 :=
  { cmd := 25, cmdsize := 72, segname := segLinkeditBytes ++ List.replicate 6 0,
    vmaddr := 4096, vmsize := 4096, fileoff := 192, filesize := 32, maxprot := 1, initprot := 1,
    nsects := 0, flags := 0 }

/-- The code-signature load command of the example: signature at `[208, 224)`. -/
def csCmd : LinkeditDataCommand := { cmd := 29, cmdsize := 16, dataoff := 208, datasize := 16 }

def header0 : MachHeader :=
  { magic := 4277009103, cputype := 16777228, cpusubtype := 0, filetype := 2, ncmds := 3,
    sizeofcmds := 160, flags := 0, reserved := 0 }

/-- The 224 bytes of the example binary. -/
def d0 : List Nat :=
  serializeHeader ctx0 header0 ++ serializeSegment64 true textCmd ++
    serializeSegment64 true linkeditCmd ++ serializeLinkeditData true csCmd ++
    (List.replicate 16 7 ++ List.replicate 16 9)

def ex0 : SignatureLocation :=
  { linkedit_segment_index := 1, linkedit_segment_data := d0.drop 192,
    signature_start_offset := 16, signature_end_offset := 32,
    linkedit_signature_start_offset := 208 }

/-- The parsed view of `d0`. -/
def m0 : MachO :=
  { ctx := ctx0, header := header0,
    load_commands := [⟨32, .segment64 textCmd⟩, ⟨104, .segment64 linkeditCmd⟩,
      ⟨176, .codeSignature csCmd⟩],
    segments := [⟨textCmd.segname, 0, 192, d0.take 192⟩,
      ⟨linkeditCmd.segname, 192, 32, d0.drop 192⟩],
    signature := some ex0 }

/-- A replacement signature of a different length. -/
def sig0 : List Nat := List.replicate 20 5

/-- A corrupted view whose `__LINKEDIT` segment claims file offset 200,
leaving an 8-byte gap after `__TEXT`; it still passes the capability check. -/
def m1 : MachO :=
  { ctx := ctx0, header := header0,
    load_commands := [⟨32, .segment64 textCmd⟩, ⟨104, .segment64 linkeditCmd⟩,
      ⟨176, .codeSignature csCmd⟩],
    segments := [⟨textCmd.segname, 0, 192, d0.take 192⟩,
      ⟨linkeditCmd.segname, 200, 32, d0.drop 192⟩],
    signature := some ex0 }

/-- Witness for C1: `create_macho_layout` applied to the concrete 224-byte
binary `d0`/`m0` with a 20-byte replacement signature. -/
theorem create_macho_layout_witness :
    ∃ out, create_macho_with_signature d0 m0 sig0 = .ok out ∧
      out.length = ex0.linkedit_signature_start_offset + sig0.length ∧
      (∀ i, i < ex0.linkedit_signature_start_offset →
        (∀ lc ∈ m0.load_commands, ¬ InMutatedField lc i) → out[i]? = d0[i]?) ∧
      out.drop ex0.linkedit_signature_start_offset = sig0 ∧
      (∀ lc ∈ m0.load_commands, ∀ c, lc.command = .codeSignature c →
        (out.drop (lc.offset + 12)).take 4 = encU32 m0.ctx.le sig0.length) ∧
      (∀ lc ∈ m0.load_commands, ∀ s, lc.command = .segment64 s →
        isLinkeditName s.segname = true →
        (out.drop (lc.offset + 48)).take 8 =
          encU64 m0.ctx.le (ex0.signature_start_offset + sig0.length)) ∧
      (∀ lc ∈ m0.load_commands, ∀ s, lc.command = .segment32 s →
        isLinkeditName s.segname = true →
        (out.drop (lc.offset + 36)).take 4 =
          encU32 m0.ctx.le (ex0.signature_start_offset + sig0.length)) := by
  set_option maxRecDepth 10000 in
  exact create_macho_layout d0 m0 sig0 ex0 rfl (by decide) (by decide) (by decide)

/-- C10: `create_macho_with_signature` asserts that every segment's file
offset is 0 or exactly the number of bytes written so far.  The corrupted
view `m1` passes the capability check but panics; under the parse-consistency
precondition (contiguous segments) the assertion branch is unreachable and
the rewriter never panics. -/
theorem create_macho_assert_contiguity :
    (check_signing_capability m1 = .ok () ∧
      create_macho_with_signature d0 m1 sig0 = .panic) ∧
    ∀ (d : List Nat) (m : MachO) (sig : List Nat),
      machOWF d m = true → create_macho_with_signature d m sig ≠ .panic := by
  constructor
  · set_option maxRecDepth 10000 in
    exact ⟨rfl, by decide⟩
  · intro d m sig hwf
    cases hso : m.signature with
    | none => simp [machOWF, hso] at hwf
    | some ex =>
        obtain ⟨hok, -, -⟩ := create_macho_run d m sig ex hso hwf
        rw [hok]
        simp

/-- Witness for C10: the no-panic half applied to the concrete well-formed
binary `d0`/`m0`. -/
theorem create_macho_assert_contiguity_witness :
    machOWF d0 m0 = true ∧ create_macho_with_signature d0 m0 sig0 ≠ .panic :=
  ⟨by set_option maxRecDepth 10000 in decide,
    create_macho_assert_contiguity.2 d0 m0 sig0
      (by set_option maxRecDepth 10000 in decide)⟩

/-- C3: `check_signing_capability` fails with `BinaryNoCodeSignature` exactly
when no signature is present, with `LinkeditNotLast` exactly when a signature
is present but `__LINKEDIT` is not the last segment, with
`DataAfterSignature` exactly when additionally the signature does not end at
the `__LINKEDIT` data length, and succeeds otherwise. -/
theorem check_signing_capability_spec :
    ∀ m : MachO,
      (check_signing_capability m = .error .BinaryNoCodeSignature ↔
        find_signature_data m = none) ∧
      (check_signing_capability m = .error .LinkeditNotLast ↔
        ∃ s, find_signature_data m = some s ∧
          s.linkedit_segment_index ≠ m.segments.length - 1) ∧
      (check_signing_capability m = .error .DataAfterSignature ↔
        ∃ s, find_signature_data m = some s ∧
          s.linkedit_segment_index = m.segments.length - 1 ∧
          s.signature_end_offset ≠ s.linkedit_segment_data.length) ∧
      (check_signing_capability m = .ok () ↔
        ∃ s, find_signature_data m = some s ∧
          s.linkedit_segment_index = m.segments.length - 1 ∧
          s.signature_end_offset = s.linkedit_segment_data.length) := by
  intro m
  cases hso : m.signature with
  | none => simp [check_signing_capability, find_signature_data, hso]
  | some s =>
      by_cases h1 : s.linkedit_segment_index = m.segments.length - 1
      · by_cases h2 : s.signature_end_offset = s.linkedit_segment_data.length
        · simp [check_signing_capability, find_signature_data, hso, h1, h2]
        · simp [check_signing_capability, find_signature_data, hso, h1, h2]
      · simp [check_signing_capability, find_signature_data, hso, h1]

/-! ## The two-pass signing pipeline (`MachOSigner::write_signed_binary`,
per Mach-O slice)

The per-slice closure of `write_signed_binary` is modelled with two
abstracted collaborators: `sbOf` stands for
`self.create_superblob(&settings, ·, signature.as_ref())` (its dependence
within one slice is only through the Mach-O view argument; the settings and
the parsed previous signature are fixed), and `parseFn` stands for goblin's
`MachO::parse` (an external crate).  Everything else — the placeholder of
`len + 1024` NUL bytes, the intermediate rewrite, the `Ordering` comparison
(`Greater` fails with `SignatureDataTooLarge`, `Equal` keeps the blob,
`Less` right-pads with NULs to the placeholder length) and the final
rewrite — follows the source. -/
def write_signed_slice (sbOf : MachO → List Nat) (parseFn : List Nat → Option MachO)
    (macho_data : List Nat) (macho : MachO) : WriteResult :=
  let placeholder_signature := List.replicate ((sbOf macho).length + 1024) 0
  match create_macho_with_signature macho_data macho placeholder_signature with
  | .err e => .err e
  | .panic => .panic
  | .ok intermediate_macho_data =>
      match parseFn intermediate_macho_data with
      | none => .err .MachOParse
      | some intermediate_macho =>
          let signature_data := sbOf intermediate_macho
          if placeholder_signature.length < signature_data.length then
            .err .SignatureDataTooLarge
          else
            create_macho_with_signature intermediate_macho_data intermediate_macho
              (signature_data ++
                List.replicate (placeholder_signature.length - signature_data.length) 0)

/-- C2: in the two-pass pipeline, if the pass-2 SuperBlob exceeds the pass-1
placeholder length the slice fails with `SignatureDataTooLarge` and no output
is produced; otherwise the pass-2 SuperBlob is right-padded with zero bytes
so that the signature embedded by the final rewrite has exactly the
placeholder length chosen in pass 1. -/
theorem write_signed_slice_padding (sbOf : MachO → List Nat)
    (parseFn : List Nat → Option MachO) (d : List Nat) (m imacho : MachO)
    (h1 : (create_macho_with_signature d m
      (List.replicate ((sbOf m).length + 1024) 0)).isOk = true)
    (h2 : parseFn (create_macho_with_signature d m
      (List.replicate ((sbOf m).length + 1024) 0)).okBytes = some imacho) :
    ((sbOf m).length + 1024 < (sbOf imacho).length →
      write_signed_slice sbOf parseFn d m = .err .SignatureDataTooLarge) ∧
    ((sbOf imacho).length ≤ (sbOf m).length + 1024 →
      write_signed_slice sbOf parseFn d m =
        create_macho_with_signature
          (create_macho_with_signature d m
            (List.replicate ((sbOf m).length + 1024) 0)).okBytes imacho
          (sbOf imacho ++
            List.replicate ((sbOf m).length + 1024 - (sbOf imacho).length) 0) ∧
      (sbOf imacho ++
        List.replicate ((sbOf m).length + 1024 - (sbOf imacho).length) 0).length =
        (sbOf m).length + 1024) := by
  cases hc : create_macho_with_signature d m (List.replicate ((sbOf m).length + 1024) 0) with
  | err e => rw [hc] at h1; simp [WriteResult.isOk] at h1
  | panic => rw [hc] at h1; simp [WriteResult.isOk] at h1
  | ok intermediate =>
      rw [hc] at h2
      simp only [WriteResult.okBytes] at h2
      constructor
      · intro hgt
        simp only [write_signed_slice, hc, h2]
        rw [if_pos (by simpa using hgt)]
      · intro hle
        refine ⟨?_, by simp; omega⟩
        simp only [write_signed_slice, hc, h2, WriteResult.okBytes]
        rw [if_neg (by simp; omega)]
        simp

set_option maxRecDepth 100000 in
/-- Witness for C2: with a constant-empty SuperBlob oracle the padding branch
produces a signature of exactly the 1024-byte placeholder length. -/
theorem write_signed_slice_padding_witness :
    write_signed_slice (fun _ => []) (fun _ => some m0) d0 m0 =
      create_macho_with_signature
        (create_macho_with_signature d0 m0 (List.replicate 1024 0)).okBytes m0
        (List.replicate 1024 0) := by
  have h := write_signed_slice_padding (fun _ => []) (fun _ => some m0) d0 m0 m0
    (by
      have hok := (create_macho_run d0 m0 (List.replicate 1024 0) ex0 rfl
        (by set_option maxRecDepth 10000 in decide)).1
      show (create_macho_with_signature d0 m0 (List.replicate 1024 0)).isOk = true
      rw [hok]
      rfl) rfl
  have h2 := h.2 (by simp)
  simpa using h2.1

/-! ## Fat/universal output assembly (`write_signed_binary`, fat branch) -/

/-- `goblin::mach::fat::FAT_MAGIC` (`0xcafebabe`). -/
def FAT_MAGIC : Nat := 3405691582

def SIZEOF_FAT_HEADER : Nat := 8

def SIZEOF_FAT_ARCH : Nat := 20

/-- goblin `FatArch`: five `u32` fields. -/
structure FatArch where
  cputype : Nat
  cpusubtype : Nat
  offset : Nat
  size : Nat
  align : Nat
deriving DecidableEq, Repr

/-- `pwrite_with(fat_arch, 0, BE)`: five big-endian `u32`s. -/
def serializeFatArch (a : FatArch) : List Nat :=
  encU32 false (a.cputype % 2 ^ 32) ++ encU32 false (a.cpusubtype % 2 ^ 32) ++
    encU32 false (a.offset % 2 ^ 32) ++ encU32 false (a.size % 2 ^ 32) ++
    encU32 false (a.align % 2 ^ 32)

theorem serializeFatArch_length (a : FatArch) : (serializeFatArch a).length = 20 := by
  simp [serializeFatArch, encU32_length]

/-- The offset-computation pass of the fat branch of `write_signed_binary`:
`pad_bytes = 4096 - current_offset % 4096`, `arch.offset = current + pad`
(`u32` cast), `arch.size = |macho_data|`, then
`current += |macho_data| + pad`. -/
def fatWriteInstructions : Nat → List (FatArch × List Nat) → List (FatArch × Nat × List Nat)
  | _, [] => []
  | current_offset, (arch, macho_data) :: rest =>
      let pad_bytes := 4096 - current_offset % 4096
      let newOffset := (current_offset + pad_bytes) % 2 ^ 32
      let newSize := macho_data.length % 2 ^ 32
      ({ arch with offset := newOffset, size := newSize }, pad_bytes, macho_data) ::
        fatWriteInstructions (current_offset + macho_data.length + pad_bytes) rest

/-- The fat-arch record write loop. -/
def fatArchRecordsBytes : List (FatArch × Nat × List Nat) → List Nat
  | [] => []
  | (arch, _, _) :: rest => serializeFatArch arch ++ fatArchRecordsBytes rest

/-- The payload write loop: zero padding then the slice bytes. -/
def fatPayloadBytes : List (FatArch × Nat × List Nat) → List Nat
  | [] => []
  | (_, pad_bytes, macho_data) :: rest =>
      List.replicate pad_bytes 0 ++ macho_data ++ fatPayloadBytes rest

/-- The fat branch of `write_signed_binary`: computes write instructions from
`SIZEOF_FAT_HEADER + SIZEOF_FAT_ARCH · n`, emits the big-endian fat magic and
arch count, the fat-arch records, then each payload preceded by its zero
padding.  Returns the instructions and the emitted bytes. -/
def write_signed_binary_fat (arches : List FatArch) (binaries : List (List Nat)) :
    List (FatArch × Nat × List Nat) × List Nat :=
  let write_instructions :=
    fatWriteInstructions (SIZEOF_FAT_HEADER + SIZEOF_FAT_ARCH * binaries.length)
      (arches.zip binaries)
  (write_instructions,
    encU32 false FAT_MAGIC ++ encU32 false (binaries.length % 2 ^ 32) ++
      fatArchRecordsBytes write_instructions ++ fatPayloadBytes write_instructions)

/-- The final write position after laying out all of `pairs` from
`current`. -/
def fatFinalOffset : Nat → List (FatArch × List Nat) → Nat
  | current, [] => current
  | current, (_, data) :: rest =>
      fatFinalOffset (current + data.length + (4096 - current % 4096)) rest

theorem fatFinalOffset_mono :
    ∀ (pairs : List (FatArch × List Nat)) (current : Nat),
      current ≤ fatFinalOffset current pairs := by
  intro pairs
  induction pairs with
  | nil => intro current; simp [fatFinalOffset]
  | cons hd rest ih =>
      intro current
      rw [fatFinalOffset]
      exact le_trans (by omega) (ih _)

theorem fatWriteInstructions_length :
    ∀ (pairs : List (FatArch × List Nat)) (current : Nat),
      (fatWriteInstructions current pairs).length = pairs.length := by
  intro pairs
  induction pairs with
  | nil => intro current; simp [fatWriteInstructions]
  | cons hd rest ih =>
      intro current
      rw [fatWriteInstructions]
      simp [ih]

theorem fatArchRecordsBytes_length :
    ∀ instrs : List (FatArch × Nat × List Nat),
      (fatArchRecordsBytes instrs).length = 20 * instrs.length := by
  intro instrs
  induction instrs with
  | nil => simp [fatArchRecordsBytes]
  | cons hd rest ih =>
      rw [fatArchRecordsBytes]
      simp [serializeFatArch_length, List.length_append, ih]
      ring

/-- Per-slice characterization of the fat layout pass together with the
emitted bytes (`out` accumulates everything written before the payloads). -/
theorem fat_payload_spec :
    ∀ (pairs : List (FatArch × List Nat)) (current : Nat) (out : List Nat),
      out.length = current →
      fatFinalOffset current pairs < 2 ^ 32 →
      ∀ k, k < pairs.length →
        ∃ arch pad data a₀,
          (fatWriteInstructions current pairs)[k]? = some (arch, pad, data) ∧
          pairs[k]? = some (a₀, data) ∧
          pad = 4096 - (fatFinalOffset current (pairs.take k)) % 4096 ∧
          arch.offset = fatFinalOffset current (pairs.take k) + pad ∧
          arch.size = data.length ∧
          ((out ++ fatPayloadBytes (fatWriteInstructions current pairs)).drop
            arch.offset).take data.length = data ∧
          (∀ j, fatFinalOffset current (pairs.take k) ≤ j → j < arch.offset →
            (out ++ fatPayloadBytes (fatWriteInstructions current pairs))[j]? = some 0) := by
  intro pairs
  induction pairs with
  | nil => intro current out _ _ k hk; simp at hk
  | cons hd rest ih =>
      intro current out hout h32 k hk
      obtain ⟨a₀, data⟩ := hd
      have hmono := fatFinalOffset_mono rest
        (current + data.length + (4096 - current % 4096))
      rw [fatFinalOffset] at h32
      cases k with
      | zero =>
          have hlt1 : current + (4096 - current % 4096) < 2 ^ 32 := by omega
          have hlt2 : data.length < 2 ^ 32 := by omega
          have hoffv : ({ a₀ with offset := (current + (4096 - current % 4096)) % 2 ^ 32, size := data.length % 2 ^ 32 } : FatArch).offset = current + (4096 - current % 4096) :=
            Nat.mod_eq_of_lt hlt1
          refine ⟨{ a₀ with offset := (current + (4096 - current % 4096)) % 2 ^ 32, size := data.length % 2 ^ 32 }, 4096 - current % 4096, data, a₀,
            by simp [fatWriteInstructions], by simp,
            by simp [fatFinalOffset], ?_, Nat.mod_eq_of_lt hlt2, ?_, ?_⟩
          · simp only [List.take_zero, fatFinalOffset]
            exact hoffv
          · rw [hoffv]
            simp only [fatWriteInstructions, fatPayloadBytes]
            rw [List.drop_append_eq_append_drop,
              show out.drop (current + (4096 - current % 4096)) = [] from by
                rw [List.drop_eq_nil_iff, hout]; omega,
              List.nil_append, hout,
              show current + (4096 - current % 4096) - current = 4096 - current % 4096
                from by omega]
            rw [show List.replicate (4096 - current % 4096) (0 : Nat) ++ data ++
                fatPayloadBytes (fatWriteInstructions
                  (current + data.length + (4096 - current % 4096)) rest) =
                (List.replicate (4096 - current % 4096) (0 : Nat) ++ data) ++
                  fatPayloadBytes (fatWriteInstructions
                    (current + data.length + (4096 - current % 4096)) rest) from by
              simp [List.append_assoc]]
            rw [List.drop_append_eq_append_drop,
              show (List.replicate (4096 - current % 4096) (0 : Nat) ++ data).drop
                  (4096 - current % 4096) = data from
                drop_append_length _ _ _ (List.length_replicate _ _),
              show 4096 - current % 4096 -
                  (List.replicate (4096 - current % 4096) (0 : Nat) ++ data).length = 0
                from by simp,
              List.drop_zero]
            rw [List.take_append_of_le_length (le_refl data.length), List.take_length]
          · intro j hj1 hj2
            simp only [List.take_zero, fatFinalOffset] at hj1
            rw [hoffv] at hj2
            simp only [fatWriteInstructions, fatPayloadBytes]
            rw [getr _ _ j (by rw [hout]; omega), hout]
            rw [show List.replicate (4096 - current % 4096) (0 : Nat) ++ data ++
                fatPayloadBytes (fatWriteInstructions
                  (current + data.length + (4096 - current % 4096)) rest) =
                List.replicate (4096 - current % 4096) (0 : Nat) ++ (data ++
                  fatPayloadBytes (fatWriteInstructions
                    (current + data.length + (4096 - current % 4096)) rest)) from by
              simp [List.append_assoc]]
            rw [getl _ _ _ (by rw [List.length_replicate]; omega)]
            simp [List.getElem?_replicate]
            omega
      | succ k' =>
          simp only [List.length_cons] at hk
          obtain ⟨arch, pad, data', a₀', hinstr, hpair, hpad, hoff, hsize, hbytes, hzero⟩ :=
            ih (current + data.length + (4096 - current % 4096))
              (out ++ (List.replicate (4096 - current % 4096) 0 ++ data))
              (by simp [hout]; omega) h32 k' (by omega)
          refine ⟨arch, pad, data', a₀', ?_, ?_, ?_, ?_, hsize, ?_, ?_⟩
          · simp only [fatWriteInstructions]
            simpa using hinstr
          · simpa using hpair
          · rw [show ((a₀, data) :: rest).take (k' + 1) = (a₀, data) :: rest.take k' from
              rfl, fatFinalOffset]
            exact hpad
          · rw [show ((a₀, data) :: rest).take (k' + 1) = (a₀, data) :: rest.take k' from
              rfl, fatFinalOffset]
            exact hoff
          · simp only [fatWriteInstructions, fatPayloadBytes]
            rw [show out ++ (List.replicate (4096 - current % 4096) (0 : Nat) ++ data ++
                fatPayloadBytes (fatWriteInstructions
                  (current + data.length + (4096 - current % 4096)) rest)) =
                (out ++ (List.replicate (4096 - current % 4096) (0 : Nat) ++ data)) ++
                  fatPayloadBytes (fatWriteInstructions
                    (current + data.length + (4096 - current % 4096)) rest) from by
              simp [List.append_assoc]]
            exact hbytes
          · intro j hj1 hj2
            rw [show ((a₀, data) :: rest).take (k' + 1) = (a₀, data) :: rest.take k' from
              rfl, fatFinalOffset] at hj1
            simp only [fatWriteInstructions, fatPayloadBytes]
            rw [show out ++ (List.replicate (4096 - current % 4096) (0 : Nat) ++ data ++
                fatPayloadBytes (fatWriteInstructions
                  (current + data.length + (4096 - current % 4096)) rest)) =
                (out ++ (List.replicate (4096 - current % 4096) (0 : Nat) ++ data)) ++
                  fatPayloadBytes (fatWriteInstructions
                    (current + data.length + (4096 - current % 4096)) rest) from by
              simp [List.append_assoc]]
            exact hzero j hj1 hj2

/-- C8: in the assembled fat output every slice payload starts at the next
4 KiB boundary strictly after the preceding content (the header block for the
first slice, the previous payload otherwise), so its offset is a multiple of
4096; the gap is zero-filled; and the fat-arch record's `offset` and `size`
fields are the payload's start offset and byte length. -/
theorem write_signed_binary_fat_spec (arches : List FatArch) (binaries : List (List Nat))
    (hlen : arches.length = binaries.length)
    (h32 : fatFinalOffset (SIZEOF_FAT_HEADER + SIZEOF_FAT_ARCH * binaries.length)
      (arches.zip binaries) < 2 ^ 32) :
    ∀ k, k < binaries.length →
      ∃ arch pad data,
        (write_signed_binary_fat arches binaries).1[k]? = some (arch, pad, data) ∧
        binaries[k]? = some data ∧
        arch.offset % 4096 = 0 ∧
        fatFinalOffset (SIZEOF_FAT_HEADER + SIZEOF_FAT_ARCH * binaries.length)
          ((arches.zip binaries).take k) < arch.offset ∧
        arch.offset =
          (fatFinalOffset (SIZEOF_FAT_HEADER + SIZEOF_FAT_ARCH * binaries.length)
            ((arches.zip binaries).take k) / 4096 + 1) * 4096 ∧
        arch.size = data.length ∧
        ((write_signed_binary_fat arches binaries).2.drop arch.offset).take data.length =
          data ∧
        (∀ j, fatFinalOffset (SIZEOF_FAT_HEADER + SIZEOF_FAT_ARCH * binaries.length)
            ((arches.zip binaries).take k) ≤ j → j < arch.offset →
          (write_signed_binary_fat arches binaries).2[j]? = some 0) := by
  intro k hk
  have hplen : (arches.zip binaries).length = binaries.length := by
    rw [List.length_zip, hlen]
    exact Nat.min_self _
  have hinstlen : (fatWriteInstructions
      (SIZEOF_FAT_HEADER + SIZEOF_FAT_ARCH * binaries.length)
      (arches.zip binaries)).length = binaries.length := by
    rw [fatWriteInstructions_length, hplen]
  have houtlen : (encU32 false FAT_MAGIC ++ encU32 false (binaries.length % 2 ^ 32) ++
      fatArchRecordsBytes (fatWriteInstructions
        (SIZEOF_FAT_HEADER + SIZEOF_FAT_ARCH * binaries.length)
        (arches.zip binaries))).length =
      SIZEOF_FAT_HEADER + SIZEOF_FAT_ARCH * binaries.length := by
    rw [List.length_append, List.length_append, encU32_length, encU32_length,
      fatArchRecordsBytes_length, hinstlen]
    simp only [SIZEOF_FAT_HEADER, SIZEOF_FAT_ARCH]
  obtain ⟨arch, pad, data, a₀, hinstr, hpair, hpad, hoff, hsize, hbytes, hzero⟩ :=
    fat_payload_spec (arches.zip binaries)
      (SIZEOF_FAT_HEADER + SIZEOF_FAT_ARCH * binaries.length) _ houtlen h32 k
      (by rw [hplen]; exact hk)
  refine ⟨arch, pad, data, hinstr, ?_, ?_, ?_, ?_, hsize, hbytes, hzero⟩
  · rw [List.getElem?_zip_eq_some] at hpair
    exact hpair.2
  · rw [hoff, hpad]
    omega
  · rw [hoff, hpad]
    omega
  · rw [hoff, hpad]
    omega

/-- Witness for C8: the fat layout theorem applied to a single 3-byte
slice. -/
theorem write_signed_binary_fat_spec_witness :
    ∃ arch pad data,
      (write_signed_binary_fat ([⟨7, 3, 0, 0, 12⟩] : List FatArch)
        [[1, 2, 3]]).1[0]? = some (arch, pad, data) ∧
      ([[1, 2, 3]] : List (List Nat))[0]? = some data ∧
      arch.offset % 4096 = 0 ∧
      fatFinalOffset (SIZEOF_FAT_HEADER + SIZEOF_FAT_ARCH *
          ([[1, 2, 3]] : List (List Nat)).length)
        ((([⟨7, 3, 0, 0, 12⟩] : List FatArch).zip [[1, 2, 3]]).take 0) < arch.offset ∧
      arch.offset =
        (fatFinalOffset (SIZEOF_FAT_HEADER + SIZEOF_FAT_ARCH *
            ([[1, 2, 3]] : List (List Nat)).length)
          ((([⟨7, 3, 0, 0, 12⟩] : List FatArch).zip [[1, 2, 3]]).take 0) / 4096 + 1) *
          4096 ∧
      arch.size = data.length ∧
      ((write_signed_binary_fat ([⟨7, 3, 0, 0, 12⟩] : List FatArch)
        [[1, 2, 3]]).2.drop arch.offset).take data.length = data ∧
      (∀ j, fatFinalOffset (SIZEOF_FAT_HEADER + SIZEOF_FAT_ARCH *
            ([[1, 2, 3]] : List (List Nat)).length)
          ((([⟨7, 3, 0, 0, 12⟩] : List FatArch).zip [[1, 2, 3]]).take 0) ≤ j →
        j < arch.offset →
        (write_signed_binary_fat ([⟨7, 3, 0, 0, 12⟩] : List FatArch)
          [[1, 2, 3]]).2[j]? = some 0) :=
  write_signed_binary_fat_spec ([⟨7, 3, 0, 0, 12⟩] : List FatArch) [[1, 2, 3]] rfl
    (by decide) 0 (by decide)

/-! ## Scoped signing settings (`signing.rs`) -/

/-- `DigestType` (`macho.rs`, not under the provided sources).

Modelled from the spec: tags none=0, SHA-1=1, SHA-256=2,
SHA-256-truncated=3, SHA-384=4, SHA-512=5 (spec §6). -/
inductive DigestType where
  | None
  | Sha1
  | Sha256
  | Sha256Truncated
  | Sha384
  | Sha512
deriving DecidableEq, Repr

/-- Modelled from the spec: each digest's width is fixed per algorithm
(spec §4.3); `hash_len` fails for the `None` algorithm. -/
def DigestType.hashLen : DigestType → Option Nat
  | .None => Option.none
  | .Sha1 => some 20
  | .Sha256 => some 32
  | .Sha256Truncated => some 20
  | .Sha384 => some 48
  | .Sha512 => some 64

/-- Opaque stand-in for `cryptographic_message_syntax::SigningKey` (external
crate). -/
structure SigningKey where
  id : Nat
deriving DecidableEq, Repr

/-- Opaque stand-in for `cryptographic_message_syntax::Certificate` (external
crate). -/
structure Certificate where
  id : Nat
deriving DecidableEq, Repr

/-- `SettingsScope` (`signing.rs`): the scope for a setting.  goblin's
`CpuType` (`u32`) and `usize` indices are both `Nat` here. -/
inductive SettingsScope where
  | Main
  | Path (path : String)
  | MultiArchIndex (index : Nat)
  | MultiArchCpuType (cpu_type : Nat)
  | PathMultiArchIndex (path : String) (index : Nat)
  | PathMultiArchCpuType (path : String) (cpu_type : Nat)
deriving DecidableEq, Repr

/-- Variant order of the derived `Ord` (widest to most granular, as the
source's comment demands). -/
def SettingsScope.tag : SettingsScope → Nat
  | .Main => 0
  | .Path _ => 1
  | .MultiArchIndex _ => 2
  | .MultiArchCpuType _ => 3
  | .PathMultiArchIndex _ _ => 4
  | .PathMultiArchCpuType _ _ => 5

/-- The strict order of the derived `Ord` on `SettingsScope`: variant order
first, then lexicographic on the fields. -/
def scopeLtB (a b : SettingsScope) : Bool :=
  if a.tag ≠ b.tag then decide (a.tag < b.tag)
  else
    match a, b with
    | .Path x, .Path y => decide (x < y)
    | .MultiArchIndex i, .MultiArchIndex j => decide (i < j)
    | .MultiArchCpuType i, .MultiArchCpuType j => decide (i < j)
    | .PathMultiArchIndex x i, .PathMultiArchIndex y j =>
        decide (x < y) || (decide (x = y) && decide (i < j))
    | .PathMultiArchCpuType x i, .PathMultiArchCpuType y j =>
        decide (x < y) || (decide (x = y) && decide (i < j))
    | _, _ => false

/-- `BTreeMap::get` on a map represented by its ascending entry list. -/
def lookupA {α : Type} (k : SettingsScope) : List (SettingsScope × α) → Option α
  | [] => Option.none
  | (k', v) :: rest => if k = k' then some v else lookupA k rest

/-- Ordered insert with replacement: one `BTreeMap::insert`. -/
def insertA {α : Type} (k : SettingsScope) (v : α) :
    List (SettingsScope × α) → List (SettingsScope × α)
  | [] => [(k, v)]
  | (k', v') :: rest =>
      if k = k' then (k, v) :: rest
      else if scopeLtB k k' then (k, v) :: (k', v') :: rest
      else (k', v') :: insertA k v rest

/-- `collect::<BTreeMap<_, _>>()` over an entry iterator: repeated insertion,
so for duplicate keys the last write wins. -/
def btreeFromList {α : Type} (l : List (SettingsScope × α)) : List (SettingsScope × α) :=
  l.foldl (fun mp p => insertA p.1 p.2 mp) []

/-- `SigningSettings` (`signing.rs`): global fields plus the six per-scope
`BTreeMap`s, each represented by its ascending entry list. -/
structure SigningSettings where
  signing_key : Option (SigningKey × Certificate)
  certificates : List Certificate
  time_stamp_url : Option String
  team_name : Option String
  digest_type : DigestType
  identifiers : List (SettingsScope × String)
  entitlements : List (SettingsScope × String)
  designated_requirement : List (SettingsScope × List (List Nat))
  code_signature_flags : List (SettingsScope × Nat)
  executable_segment_flags : List (SettingsScope × Nat)
  info_plist_data : List (SettingsScope × List Nat)
  code_resources_data : List (SettingsScope × List Nat)
deriving DecidableEq, Repr

namespace SigningSettings

/-- `binary_identifier`. -/
def binary_identifier (s : SigningSettings) (scope : SettingsScope) : Option String :=
  lookupA scope s.identifiers

/-- `entitlements_xml`. -/
def entitlements_xml (s : SigningSettings) (scope : SettingsScope) : Option String :=
  lookupA scope s.entitlements

/-- `designated_requirement`. -/
def designated_requirement_get (s : SigningSettings) (scope : SettingsScope) :
    Option (List (List Nat)) :=
  lookupA scope s.designated_requirement

/-- `code_signature_flags`. -/
def code_signature_flags_get (s : SigningSettings) (scope : SettingsScope) : Option Nat :=
  lookupA scope s.code_signature_flags

/-- `executable_segment_flags`. -/
def executable_segment_flags_get (s : SigningSettings) (scope : SettingsScope) : Option Nat :=
  lookupA scope s.executable_segment_flags

/-- `info_plist_data`. -/
def info_plist_data_get (s : SigningSettings) (scope : SettingsScope) : Option (List Nat) :=
  lookupA scope s.info_plist_data

/-- `code_resources_data`. -/
def code_resources_data_get (s : SigningSettings) (scope : SettingsScope) : Option (List Nat) :=
  lookupA scope s.code_resources_data

/-- `clone_with_filter_map`: copies the global fields verbatim and
filter-maps the keys of each of the six scope maps, collecting back into a
`BTreeMap`. -/
def clone_with_filter_map (s : SigningSettings)
    (key_map : SettingsScope → Option SettingsScope) : SigningSettings where
  signing_key := s.signing_key
  certificates := s.certificates
  time_stamp_url := s.time_stamp_url
  team_name := s.team_name
  digest_type := s.digest_type
  identifiers :=
    btreeFromList (s.identifiers.filterMap fun p => (key_map p.1).map fun k => (k, p.2))
  entitlements :=
    btreeFromList (s.entitlements.filterMap fun p => (key_map p.1).map fun k => (k, p.2))
  designated_requirement :=
    btreeFromList
      (s.designated_requirement.filterMap fun p => (key_map p.1).map fun k => (k, p.2))
  code_signature_flags :=
    btreeFromList
      (s.code_signature_flags.filterMap fun p => (key_map p.1).map fun k => (k, p.2))
  executable_segment_flags :=
    btreeFromList
      (s.executable_segment_flags.filterMap fun p => (key_map p.1).map fun k => (k, p.2))
  info_plist_data :=
    btreeFromList (s.info_plist_data.filterMap fun p => (key_map p.1).map fun k => (k, p.2))
  code_resources_data :=
    btreeFromList
      (s.code_resources_data.filterMap fun p => (key_map p.1).map fun k => (k, p.2))

/-- The key map of `as_nested_macho_settings`: `Main`, the CPU-type scope and
the index scope collapse onto `Main`; everything else is dropped. -/
def nestedKeyMap (index cpu_type : Nat) (key : SettingsScope) : Option SettingsScope :=
  if key = SettingsScope.Main ∨ key = SettingsScope.MultiArchCpuType cpu_type ∨
      key = SettingsScope.MultiArchIndex index then
    some SettingsScope.Main
  else
    Option.none

/-- `as_nested_macho_settings(index, cpu_type)`. -/
def as_nested_macho_settings (s : SigningSettings) (index cpu_type : Nat) : SigningSettings :=
  s.clone_with_filter_map (nestedKeyMap index cpu_type)

/-- `str::strip_prefix`. -/
def stripPfx (pre s : String) : Option String :=
  if pre.data.isPrefixOf s.data then some ⟨s.data.drop pre.data.length⟩ else Option.none

/-- `clone_strip_prefix`: promotes `main_path` to the main scope and strips
`pfx` from other path keys; other paths are dropped. -/
def clone_strip_pfx (s : SigningSettings) (main_path pfx : String) : SigningSettings :=
  s.clone_with_filter_map fun key =>
    match key with
    | .Main => some .Main
    | .Path path =>
        if path = main_path then some .Main
        else
          match stripPfx pfx path with
          | some path => some (.Path path)
          | Option.none => Option.none
    | .MultiArchIndex index => some (.MultiArchIndex index)
    | .MultiArchCpuType cpu_type => some (.MultiArchCpuType cpu_type)
    | .PathMultiArchIndex path index =>
        if path = main_path then some (.MultiArchIndex index)
        else
          match stripPfx pfx path with
          | some path => some (.PathMultiArchIndex path index)
          | Option.none => Option.none
    | .PathMultiArchCpuType path cpu_type =>
        if path = main_path then some (.MultiArchCpuType cpu_type)
        else
          match stripPfx pfx path with
          | some path => some (.PathMultiArchCpuType path cpu_type)
          | Option.none => Option.none

/-- `as_nested_bundle_settings(bundle_path)`. -/
def as_nested_bundle_settings (s : SigningSettings) (bundle_path : String) : SigningSettings :=
  s.clone_strip_pfx bundle_path (bundle_path ++ "/")

/-- `as_bundle_macho_settings(path)`. -/
def as_bundle_macho_settings (s : SigningSettings) (path : String) : SigningSettings :=
  s.clone_strip_pfx path path

end SigningSettings

/-! ### Scope-map lemmas for the nested-Mach-O derivation -/

/-- The `BTreeMap` invariant: entries strictly ascending in the scope
order. -/
def ScopeSorted {α : Type} (l : List (SettingsScope × α)) : Prop :=
  l.Pairwise fun p q => scopeLtB p.1 q.1 = true

instance {α : Type} (l : List (SettingsScope × α)) : Decidable (ScopeSorted l) :=
  List.instDecidablePairwise l

/-- All six scope maps of a settings instance satisfy the `BTreeMap`
invariant. -/
def SettingsWF (s : SigningSettings) : Prop :=
  ScopeSorted s.identifiers ∧ ScopeSorted s.entitlements ∧
    ScopeSorted s.designated_requirement ∧ ScopeSorted s.code_signature_flags ∧
    ScopeSorted s.executable_segment_flags ∧ ScopeSorted s.info_plist_data ∧
    ScopeSorted s.code_resources_data

instance (s : SigningSettings) : Decidable (SettingsWF s) := by
  unfold SettingsWF
  infer_instance

theorem lookupA_eq_none {α : Type} (k : SettingsScope) :
    ∀ l : List (SettingsScope × α), (∀ p ∈ l, p.1 ≠ k) → lookupA k l = Option.none := by
  intro l
  induction l with
  | nil => intro _; rfl
  | cons hd rest ih =>
      intro h
      obtain ⟨k', v⟩ := hd
      rw [lookupA, if_neg (fun hc => h (k', v) (by simp) hc.symm)]
      exact ih fun p hp => h p (by simp [hp])

/-- Order facts between the three scopes that collapse onto `Main`. -/
theorem scopeLtB_main_main : scopeLtB SettingsScope.Main SettingsScope.Main = false := by
  decide

theorem scopeLtB_idx_main (i : Nat) :
    scopeLtB (SettingsScope.MultiArchIndex i) SettingsScope.Main = false := by
  simp [scopeLtB, SettingsScope.tag]

theorem scopeLtB_idx_idx (i : Nat) :
    scopeLtB (SettingsScope.MultiArchIndex i) (SettingsScope.MultiArchIndex i) = false := by
  simp [scopeLtB, SettingsScope.tag]

theorem scopeLtB_cpu_main (c : Nat) :
    scopeLtB (SettingsScope.MultiArchCpuType c) SettingsScope.Main = false := by
  simp [scopeLtB, SettingsScope.tag]

theorem scopeLtB_cpu_idx (c i : Nat) :
    scopeLtB (SettingsScope.MultiArchCpuType c) (SettingsScope.MultiArchIndex i) = false := by
  simp [scopeLtB, SettingsScope.tag]

theorem scopeLtB_cpu_cpu (c : Nat) :
    scopeLtB (SettingsScope.MultiArchCpuType c) (SettingsScope.MultiArchCpuType c) = false := by
  simp [scopeLtB, SettingsScope.tag]

/-- The `[(Main, v)]`-or-empty singleton used to describe the filtered
list. -/
def optMainEntry {α : Type} : Option α → List (SettingsScope × α)
  | some v => [(SettingsScope.Main, v)]
  | Option.none => []

/-- Shape of the filtered entry list of `as_nested_macho_settings`: on a
sorted map it is the `Main` entry, then the index entry, then the CPU entry,
all re-keyed to `Main`. -/
theorem nested_filter_shape {α : Type} (i c : Nat) :
    ∀ l : List (SettingsScope × α), ScopeSorted l →
      (l.filterMap fun p => (SigningSettings.nestedKeyMap i c p.1).map fun k => (k, p.2)) =
        optMainEntry (lookupA SettingsScope.Main l) ++
          optMainEntry (lookupA (SettingsScope.MultiArchIndex i) l) ++
          optMainEntry (lookupA (SettingsScope.MultiArchCpuType c) l) := by
  intro l
  induction l with
  | nil => intro _; rfl
  | cons hd rest ih =>
      intro hs
      rw [ScopeSorted, List.pairwise_cons] at hs
      obtain ⟨hhead, htail⟩ := hs
      obtain ⟨k, v⟩ := hd
      have ihr := ih htail
      by_cases hMain : k = SettingsScope.Main
      · subst hMain
        have hnone : lookupA SettingsScope.Main rest = (Option.none : Option α) :=
          lookupA_eq_none _ rest fun p hp heq => by
            have hlt := hhead p hp
            rw [heq, scopeLtB_main_main] at hlt
            cases hlt
        have hkey : SigningSettings.nestedKeyMap i c SettingsScope.Main =
            some SettingsScope.Main := by
          rw [SigningSettings.nestedKeyMap]
          exact if_pos (Or.inl rfl)
        rw [List.filterMap_cons, hkey, ihr, hnone]
        simp [lookupA, optMainEntry]
      · by_cases hIdx : k = SettingsScope.MultiArchIndex i
        · subst hIdx
          have hnoneM : lookupA SettingsScope.Main rest = (Option.none : Option α) :=
            lookupA_eq_none _ rest fun p hp heq => by
              have hlt := hhead p hp
              rw [heq, scopeLtB_idx_main] at hlt
              cases hlt
          have hnoneI :
              lookupA (SettingsScope.MultiArchIndex i) rest = (Option.none : Option α) :=
            lookupA_eq_none _ rest fun p hp heq => by
              have hlt := hhead p hp
              rw [heq, scopeLtB_idx_idx] at hlt
              cases hlt
          have hkey : SigningSettings.nestedKeyMap i c (SettingsScope.MultiArchIndex i) =
              some SettingsScope.Main := by
            rw [SigningSettings.nestedKeyMap]
            exact if_pos (Or.inr (Or.inr rfl))
          rw [List.filterMap_cons, hkey, ihr, hnoneM, hnoneI]
          simp [lookupA, optMainEntry, hnoneM]
        · by_cases hCpu : k = SettingsScope.MultiArchCpuType c
          · subst hCpu
            have hnoneM : lookupA SettingsScope.Main rest = (Option.none : Option α) :=
              lookupA_eq_none _ rest fun p hp heq => by
                have hlt := hhead p hp
                rw [heq, scopeLtB_cpu_main] at hlt
                cases hlt
            have hnoneI :
                lookupA (SettingsScope.MultiArchIndex i) rest = (Option.none : Option α) :=
              lookupA_eq_none _ rest fun p hp heq => by
                have hlt := hhead p hp
                rw [heq, scopeLtB_cpu_idx] at hlt
                cases hlt
            have hnoneC :
                lookupA (SettingsScope.MultiArchCpuType c) rest = (Option.none : Option α) :=
              lookupA_eq_none _ rest fun p hp heq => by
                have hlt := hhead p hp
                rw [heq, scopeLtB_cpu_cpu] at hlt
                cases hlt
            have hkey : SigningSettings.nestedKeyMap i c (SettingsScope.MultiArchCpuType c) =
                some SettingsScope.Main := by
              rw [SigningSettings.nestedKeyMap]
              exact if_pos (Or.inr (Or.inl rfl))
            rw [List.filterMap_cons, hkey, ihr, hnoneM, hnoneI, hnoneC]
            simp [lookupA, optMainEntry, hnoneM, hnoneI]
          · have hdrop : SigningSettings.nestedKeyMap i c k = Option.none := by
              rw [SigningSettings.nestedKeyMap,
                if_neg (by intro hor; rcases hor with h | h | h <;> contradiction)]
            rw [List.filterMap_cons, hdrop, ihr]
            rw [lookupA, if_neg (fun hc => hMain hc.symm),
              lookupA, if_neg (fun hc => hIdx hc.symm),
              lookupA, if_neg (fun hc => hCpu hc.symm)]
            simp

/-- First-present of CPU-scoped, index-scoped and main-scoped values. -/
def precOf {α : Type} (cpuV idxV mainV : Option α) : Option α :=
  match cpuV with
  | some v => some v
  | Option.none =>
      match idxV with
      | some v => some v
      | Option.none => mainV

/-- `Main` lookup in the collected nested map: CPU beats index beats main. -/
theorem nested_map_main {α : Type} (i c : Nat) (l : List (SettingsScope × α))
    (hs : ScopeSorted l) :
    lookupA SettingsScope.Main
      (btreeFromList
        (l.filterMap fun p => (SigningSettings.nestedKeyMap i c p.1).map fun k => (k, p.2))) =
      precOf (lookupA (SettingsScope.MultiArchCpuType c) l)
        (lookupA (SettingsScope.MultiArchIndex i) l) (lookupA SettingsScope.Main l) := by
  rw [nested_filter_shape i c l hs]
  rcases hM : lookupA SettingsScope.Main l with _ | vM <;>
    rcases hI : lookupA (SettingsScope.MultiArchIndex i) l with _ | vI <;>
      rcases hC : lookupA (SettingsScope.MultiArchCpuType c) l with _ | vC <;>
        simp [optMainEntry, btreeFromList, insertA, lookupA, precOf]

/-- Any non-`Main` lookup in the collected nested map is empty. -/
theorem nested_map_other {α : Type} (i c : Nat) (l : List (SettingsScope × α))
    (hs : ScopeSorted l) (k : SettingsScope) (hk : k ≠ SettingsScope.Main) :
    lookupA k
      (btreeFromList
        (l.filterMap fun p => (SigningSettings.nestedKeyMap i c p.1).map fun k => (k, p.2))) =
      Option.none := by
  rw [nested_filter_shape i c l hs]
  rcases hM : lookupA SettingsScope.Main l with _ | vM <;>
    rcases hI : lookupA (SettingsScope.MultiArchIndex i) l with _ | vI <;>
      rcases hC : lookupA (SettingsScope.MultiArchCpuType c) l with _ | vC <;>
        simp [optMainEntry, btreeFromList, insertA, lookupA, hk]

/-- Example settings instance with all seven scope maps populated in
different presence patterns (sorted by the derived scope order). -/
def sEx : SigningSettings where
  signing_key := some ({ id := 1 }, { id := 2 })
  certificates := [{ id := 3 }]
  time_stamp_url := some "http://ts"
  team_name := some "team"
  digest_type := DigestType.Sha256
  identifiers :=
    [(SettingsScope.Main, "main-id"), (SettingsScope.MultiArchIndex 0, "idx-id"),
      (SettingsScope.MultiArchCpuType 7, "cpu-id")]
  entitlements := [(SettingsScope.Main, "e-main"), (SettingsScope.MultiArchIndex 0, "e-idx")]
  designated_requirement := [(SettingsScope.Main, [[1]])]
  code_signature_flags := [(SettingsScope.Path "p", 9), (SettingsScope.MultiArchIndex 0, 2)]
  executable_segment_flags := [(SettingsScope.MultiArchCpuType 7, 1)]
  info_plist_data := []
  code_resources_data := [(SettingsScope.Main, [3]), (SettingsScope.MultiArchCpuType 7, [4])]

/-- C6: on well-formed settings, `as_nested_macho_settings(i, c)` resolves
every per-scope field at `Main` by precedence CPU type over index over main,
and drops entries of every other scope. -/
theorem as_nested_macho_settings_precedence (s : SigningSettings) (i c : Nat)
    (hs : SettingsWF s) :
    ((s.as_nested_macho_settings i c).binary_identifier SettingsScope.Main =
        precOf (s.binary_identifier (SettingsScope.MultiArchCpuType c))
          (s.binary_identifier (SettingsScope.MultiArchIndex i)) (s.binary_identifier SettingsScope.Main)) ∧
    ((s.as_nested_macho_settings i c).entitlements_xml SettingsScope.Main =
        precOf (s.entitlements_xml (SettingsScope.MultiArchCpuType c))
          (s.entitlements_xml (SettingsScope.MultiArchIndex i)) (s.entitlements_xml SettingsScope.Main)) ∧
    ((s.as_nested_macho_settings i c).designated_requirement_get SettingsScope.Main =
        precOf (s.designated_requirement_get (SettingsScope.MultiArchCpuType c))
          (s.designated_requirement_get (SettingsScope.MultiArchIndex i)) (s.designated_requirement_get SettingsScope.Main)) ∧
    ((s.as_nested_macho_settings i c).code_signature_flags_get SettingsScope.Main =
        precOf (s.code_signature_flags_get (SettingsScope.MultiArchCpuType c))
          (s.code_signature_flags_get (SettingsScope.MultiArchIndex i)) (s.code_signature_flags_get SettingsScope.Main)) ∧
    ((s.as_nested_macho_settings i c).executable_segment_flags_get SettingsScope.Main =
        precOf (s.executable_segment_flags_get (SettingsScope.MultiArchCpuType c))
          (s.executable_segment_flags_get (SettingsScope.MultiArchIndex i)) (s.executable_segment_flags_get SettingsScope.Main)) ∧
    ((s.as_nested_macho_settings i c).info_plist_data_get SettingsScope.Main =
        precOf (s.info_plist_data_get (SettingsScope.MultiArchCpuType c))
          (s.info_plist_data_get (SettingsScope.MultiArchIndex i)) (s.info_plist_data_get SettingsScope.Main)) ∧
    ((s.as_nested_macho_settings i c).code_resources_data_get SettingsScope.Main =
        precOf (s.code_resources_data_get (SettingsScope.MultiArchCpuType c))
          (s.code_resources_data_get (SettingsScope.MultiArchIndex i)) (s.code_resources_data_get SettingsScope.Main)) ∧
    (∀ k : SettingsScope, k ≠ SettingsScope.Main →
        (s.as_nested_macho_settings i c).binary_identifier k = Option.none ∧
        (s.as_nested_macho_settings i c).entitlements_xml k = Option.none ∧
        (s.as_nested_macho_settings i c).designated_requirement_get k = Option.none ∧
        (s.as_nested_macho_settings i c).code_signature_flags_get k = Option.none ∧
        (s.as_nested_macho_settings i c).executable_segment_flags_get k = Option.none ∧
        (s.as_nested_macho_settings i c).info_plist_data_get k = Option.none ∧
        (s.as_nested_macho_settings i c).code_resources_data_get k = Option.none) := by
  obtain ⟨h1, h2, h3, h4, h5, h6, h7⟩ := hs
  simp only [SigningSettings.as_nested_macho_settings, SigningSettings.clone_with_filter_map,
    SigningSettings.binary_identifier, SigningSettings.entitlements_xml,
    SigningSettings.designated_requirement_get, SigningSettings.code_signature_flags_get,
    SigningSettings.executable_segment_flags_get, SigningSettings.info_plist_data_get,
    SigningSettings.code_resources_data_get]
  refine ⟨nested_map_main i c _ h1, nested_map_main i c _ h2, nested_map_main i c _ h3,
    nested_map_main i c _ h4, nested_map_main i c _ h5, nested_map_main i c _ h6,
    nested_map_main i c _ h7, fun k hk =>
      ⟨nested_map_other i c _ h1 k hk, nested_map_other i c _ h2 k hk,
        nested_map_other i c _ h3 k hk, nested_map_other i c _ h4 k hk,
        nested_map_other i c _ h5 k hk, nested_map_other i c _ h6 k hk,
        nested_map_other i c _ h7 k hk⟩⟩

theorem as_nested_macho_settings_precedence_witness :
    SettingsWF sEx ∧
      (sEx.as_nested_macho_settings 0 7).binary_identifier SettingsScope.Main =
        precOf (sEx.binary_identifier (SettingsScope.MultiArchCpuType 7))
          (sEx.binary_identifier (SettingsScope.MultiArchIndex 0))
          (sEx.binary_identifier SettingsScope.Main) :=
  ⟨by decide, (as_nested_macho_settings_precedence sEx 0 7 (by decide)).1⟩

/-- C9: the three scope-deriving transforms copy the global fields — signing
key, certificate chain, time-stamp URL, team name, digest type — verbatim. -/
theorem derived_settings_preserve_globals (s : SigningSettings) (i c : Nat) (p q : String) :
    ((s.as_nested_macho_settings i c).signing_key = s.signing_key ∧
      (s.as_nested_macho_settings i c).certificates = s.certificates ∧
      (s.as_nested_macho_settings i c).time_stamp_url = s.time_stamp_url ∧
      (s.as_nested_macho_settings i c).team_name = s.team_name ∧
      (s.as_nested_macho_settings i c).digest_type = s.digest_type) ∧
    ((s.as_bundle_macho_settings p).signing_key = s.signing_key ∧
      (s.as_bundle_macho_settings p).certificates = s.certificates ∧
      (s.as_bundle_macho_settings p).time_stamp_url = s.time_stamp_url ∧
      (s.as_bundle_macho_settings p).team_name = s.team_name ∧
      (s.as_bundle_macho_settings p).digest_type = s.digest_type) ∧
    ((s.as_nested_bundle_settings q).signing_key = s.signing_key ∧
      (s.as_nested_bundle_settings q).certificates = s.certificates ∧
      (s.as_nested_bundle_settings q).time_stamp_url = s.time_stamp_url ∧
      (s.as_nested_bundle_settings q).team_name = s.team_name ∧
      (s.as_nested_bundle_settings q).digest_type = s.digest_type) :=
  ⟨⟨rfl, rfl, rfl, rfl, rfl⟩, ⟨rfl, rfl, rfl, rfl, rfl⟩, ⟨rfl, rfl, rfl, rfl, rfl⟩⟩

/-! ### Code Directory builder (`create_code_directory`, `create_special_blobs`) -/

/-- Modelled from the spec: the special-slot identifiers the builder touches
(§4.4): Info plist is slot 1, the Requirement Set slot 2, the Resource Dir
slot 3, Entitlements slot 5. -/
inductive CodeSigningSlot where
  | Info
  | RequirementSet
  | ResourceDir
  | Entitlements
deriving DecidableEq, Repr

/-- Modelled from the spec: a digest is a byte string (§4.3). -/
structure Digest where
  data : List Nat
deriving DecidableEq, Repr

/-- Modelled from the spec: a null digest is all-zero (§4.5 step 7 speaks of
non-null prior digests). -/
def Digest.is_null (d : Digest) : Bool :=
  d.data.all fun b => b = 0

/-- Modelled from the spec: the fields of a previously embedded Code
Directory that the builder reads (§4.5: flags, `exec_seg_flags`, `runtime`,
Info/Resource special-slot digests, ident, team name). The full
`CodeDirectoryBlob` parser lives in `code_directory.rs`, outside the
embedded sources. -/
structure PrevCodeDirectory where
  flags : Nat
  exec_seg_flags : Option Nat
  runtime : Option Nat
  special_hashes : List (CodeSigningSlot × Digest)
  ident : String
  team_name : Option String
deriving DecidableEq, Repr

/-- Modelled from the spec: the previously embedded signature, of which the
builder consumes only the parsed Code Directory
(`signature.code_directory().unwrap_or(None)`; a parse failure behaves as
absence). -/
structure EmbeddedSignature where
  code_directory : Option PrevCodeDirectory
deriving DecidableEq, Repr

/-- Modelled from the spec: the external computations the builder invokes —
per-algorithm digesting (§4.3, fails on an unsupported algorithm), per-page
code hashing (§4.3), and the serialized bytes of the two special blobs
(§4.6). They are kept abstract; the builder only routes their outputs. -/
structure SigningOracles where
  digest : DigestType → List Nat → Option (List Nat)
  computeCodeHashes : MachO → DigestType → Nat → List (List Nat)
  requirementSetBlob : List (List Nat) → List Nat
  entitlementsBlob : String → List Nat

/-- The produced Code Directory record (`CodeDirectoryBlob` as the builder
fills it; `code_hashes`/`special_hashes` carry digests, the rest scalar
fields). -/
structure CodeDirectoryBlob where
  version : Nat
  flags : Nat
  code_limit : Nat
  hash_size : Nat
  hash_type : DigestType
  platform : Nat
  page_size : Nat
  spare2 : Nat
  scatter_offset : Option Nat
  spare3 : Option Nat
  code_limit_64 : Option Nat
  exec_seg_base : Option Nat
  exec_seg_limit : Option Nat
  exec_seg_flags : Option Nat
  runtime : Option Nat
  pre_encrypt_offset : Option Nat
  linkage_hash_type : Option Nat
  linkage_truncated : Option Nat
  spare4 : Option Nat
  linkage_offset : Option Nat
  linkage_size : Option Nat
  ident : String
  team_name : Option String
  code_hashes : List Digest
  special_hashes : List (CodeSigningSlot × Digest)
deriving DecidableEq, Repr

/-- `CodeSignatureFlags::ADHOC` (bit 1). -/
def CS_ADHOC : Nat := 2

/-- `CodeSignatureFlags::LINKER_SIGNED` (bit 17). -/
def CS_LINKER_SIGNED : Nat := 131072

/-- Outcome of `create_code_directory`: a Code Directory, an error, or a
panic (the `.last().unwrap()` on an empty segment list). -/
inductive CdError where
  | NoIdentifier
  | DigestUnsupported
deriving DecidableEq, Repr

inductive CdResult where
  | ok (cd : CodeDirectoryBlob)
  | err (e : CdError)
  | panic
deriving DecidableEq, Repr

/-- `HashMap::insert` on the slot map (replace an existing key). -/
def hmInsert (k : CodeSigningSlot) (v : Digest) :
    List (CodeSigningSlot × Digest) → List (CodeSigningSlot × Digest)
  | [] => [(k, v)]
  | (k', v') :: rest => if k = k' then (k, v) :: rest else (k', v') :: hmInsert k v rest

/-- `HashMap::get` on the slot map. -/
def hmGet (k : CodeSigningSlot) : List (CodeSigningSlot × Digest) → Option Digest
  | [] => Option.none
  | (k', v) :: rest => if k = k' then some v else hmGet k rest

/-- `create_special_blobs`: an optional Requirement Set blob from the
main-scoped designated requirement, then an optional Entitlements blob from
the main-scoped entitlements XML. -/
def create_special_blobs (oc : SigningOracles) (settings : SigningSettings) :
    List (CodeSigningSlot × List Nat) :=
  (match settings.designated_requirement_get SettingsScope.Main with
    | some exprs => [(CodeSigningSlot.RequirementSet, oc.requirementSetBlob exprs)]
    | Option.none => []) ++
  (match settings.entitlements_xml SettingsScope.Main with
    | some ent => [(CodeSigningSlot.Entitlements, oc.entitlementsBlob ent)]
    | Option.none => [])

/-- Digest each special blob's bytes (the `?`-collect over
`settings.digest_type().digest(&data)`). -/
def digestSpecialBlobs (oc : SigningOracles) (dt : DigestType) :
    List (CodeSigningSlot × List Nat) → Option (List (CodeSigningSlot × Digest))
  | [] => some []
  | (slot, data) :: rest =>
      match oc.digest dt data with
      | some h => (digestSpecialBlobs oc dt rest).map fun tl => (slot, ⟨h⟩) :: tl
      | Option.none => Option.none

/-- The Info-plist / Resource-Dir slot update: digest the main-scoped bytes
when present, else inherit a non-null digest from the previous Code
Directory. -/
def updateSlotScoped (oc : SigningOracles) (dt : DigestType) (slot : CodeSigningSlot)
    (scoped_data : Option (List Nat)) (previous_cd : Option PrevCodeDirectory)
    (sh : List (CodeSigningSlot × Digest)) : Option (List (CodeSigningSlot × Digest)) :=
  match scoped_data with
  | some data => (oc.digest dt data).map fun h => hmInsert slot ⟨h⟩ sh
  | Option.none =>
      match previous_cd with
      | some pcd =>
          match hmGet slot pcd.special_hashes with
          | some dg => some (if dg.is_null then sh else hmInsert slot dg sh)
          | Option.none => some sh
      | Option.none => some sh

/-- All special-slot hashes: the digested special blobs, then the Info slot,
then the Resource Dir slot. -/
def resolveSpecialHashes (oc : SigningOracles) (settings : SigningSettings)
    (previous_cd : Option PrevCodeDirectory) : Option (List (CodeSigningSlot × Digest)) :=
  match digestSpecialBlobs oc settings.digest_type (create_special_blobs oc settings) with
  | Option.none => Option.none
  | some sh0 =>
      match updateSlotScoped oc settings.digest_type CodeSigningSlot.Info
          (settings.info_plist_data_get SettingsScope.Main) previous_cd sh0 with
      | Option.none => Option.none
      | some sh1 =>
          updateSlotScoped oc settings.digest_type CodeSigningSlot.ResourceDir
            (settings.code_resources_data_get SettingsScope.Main) previous_cd sh1

/-- The effective flags word: scope-provided flags, else the previous Code
Directory's, else empty; then the `ADHOC` bit is forced iff no signing key
is configured, and the `LINKER_SIGNED` bit is cleared (`-=` on bitflags is
and-not within the 32-bit universe). -/
def effectiveFlags (settings : SigningSettings) (previous_cd : Option PrevCodeDirectory) :
    Nat :=
  let flags0 : Nat :=
    match settings.code_signature_flags_get SettingsScope.Main with
    | some additional => additional
    | Option.none =>
        match previous_cd with
        | some pcd => pcd.flags
        | Option.none => 0
  let flags1 : Nat :=
    if settings.signing_key.isNone then flags0 ||| CS_ADHOC
    else flags0 &&& ((2 ^ 32 - 1) ^^^ CS_ADHOC)
  flags1 &&& ((2 ^ 32 - 1) ^^^ CS_LINKER_SIGNED)

/-- The code-limit pair `(code_limit, code_limit_64)`: the existing
signature's absolute start offset, else the end of `__LINKEDIT`, else the
end of the last segment (`Option.none` stands for the `unwrap` panic on an
empty segment list); values beyond `u32::MAX` go to the 64-bit field with
the 32-bit field zeroed. -/
def codeLimitPair (macho : MachO) : Option (Nat × Option Nat) :=
  match find_signature_data macho with
  | some sig =>
      let limit := sig.linkedit_signature_start_offset
      if 2 ^ 32 - 1 < limit then some (0, some limit) else some (limit, Option.none)
  | Option.none =>
      match macho.segments.find? fun x => isLinkeditName x.segname with
      | some segment =>
          let limit := segment.fileoff + segment.data.length
          if 2 ^ 32 - 1 < limit then some (0, some limit) else some (limit, Option.none)
      | Option.none =>
          match macho.segments.getLast? with
          | some last_segment =>
              let limit := last_segment.fileoff + last_segment.data.length
              if 2 ^ 32 - 1 < limit then some (0, some limit) else some (limit, Option.none)
          | Option.none => Option.none

/-- `exec_seg_flags`: scope value, else the previous Code Directory's, else
unset. -/
def resolveExecSegFlags (settings : SigningSettings)
    (previous_cd : Option PrevCodeDirectory) : Option Nat :=
  match settings.executable_segment_flags_get SettingsScope.Main with
  | some f => some f
  | Option.none =>
      match previous_cd with
      | some pcd => pcd.exec_seg_flags
      | Option.none => Option.none

/-- `ident`: scope value, else inherited, else `NoIdentifier`. -/
def resolveIdent (settings : SigningSettings) (previous_cd : Option PrevCodeDirectory) :
    Except CdError String :=
  match settings.binary_identifier SettingsScope.Main with
  | some i => Except.ok i
  | Option.none =>
      match previous_cd with
      | some pcd => Except.ok pcd.ident
      | Option.none => Except.error CdError.NoIdentifier

/-- `team_name`: settings value, else inherited, else unset. -/
def resolveTeamName (settings : SigningSettings)
    (previous_cd : Option PrevCodeDirectory) : Option String :=
  match settings.team_name with
  | some t => some t
  | Option.none =>
      match previous_cd with
      | some pcd => pcd.team_name
      | Option.none => Option.none

/-- Modelled from the spec: `adjust_version`/`clear_newer_fields` (§4.5 step
9, in `code_directory.rs` outside the embedded sources) rewrite `version` to
the minimum that encodes every populated optional field and clear the fields
the chosen version does not carry. By minimality a populated field is
encodable at the chosen version, and an unpopulated field is already clear,
so on every field other than `version` the step is the identity; no theorem
below inspects `version`, so the step is embedded as the identity. -/
def cdFinalize (cd : CodeDirectoryBlob) : CodeDirectoryBlob :=
  cd

/-- `create_code_directory` (`macho_signing.rs`): assemble the Code
Directory from the settings, the Mach-O view and the previous signature. -/
def create_code_directory (oc : SigningOracles) (settings : SigningSettings)
    (macho : MachO) (signature : Option EmbeddedSignature) : CdResult :=
  let previous_cd : Option PrevCodeDirectory :=
    match signature with
    | some sig => sig.code_directory
    | Option.none => Option.none
  match codeLimitPair macho with
  | Option.none => CdResult.panic
  | some (code_limit, code_limit_64) =>
      match resolveSpecialHashes oc settings previous_cd with
      | Option.none => CdResult.err CdError.DigestUnsupported
      | some sh =>
          match resolveIdent settings previous_cd with
          | Except.error e => CdResult.err e
          | Except.ok ident =>
              match settings.digest_type.hashLen with
              | Option.none => CdResult.err CdError.DigestUnsupported
              | some hl =>
                  CdResult.ok (cdFinalize
                    { version := 0
                      flags := effectiveFlags settings previous_cd
                      code_limit := code_limit
                      hash_size := hl
                      hash_type := settings.digest_type
                      platform := 0
                      page_size := 4096
                      spare2 := 0
                      scatter_offset := Option.none
                      spare3 := Option.none
                      code_limit_64 := code_limit_64
                      exec_seg_base := Option.none
                      exec_seg_limit := Option.none
                      exec_seg_flags := resolveExecSegFlags settings previous_cd
                      runtime :=
                        match previous_cd with
                        | some pcd => pcd.runtime
                        | Option.none => Option.none
                      pre_encrypt_offset := Option.none
                      linkage_hash_type := Option.none
                      linkage_truncated := Option.none
                      spare4 := Option.none
                      linkage_offset := Option.none
                      linkage_size := Option.none
                      ident := ident
                      team_name := resolveTeamName settings previous_cd
                      code_hashes :=
                        (oc.computeCodeHashes macho settings.digest_type 4096).map Digest.mk
                      special_hashes := sh })

/-- Spec-side (§4.5 step 2): the code-limit source — an existing signature's
absolute start offset, else the end of `__LINKEDIT`, else the end of the
last segment. -/
def specCodeLimit (macho : MachO) : Option Nat :=
  match find_signature_data macho with
  | some sig => some sig.linkedit_signature_start_offset
  | Option.none =>
      match macho.segments.find? fun x => isLinkeditName x.segname with
      | some segment => some (segment.fileoff + segment.data.length)
      | Option.none =>
          match macho.segments.getLast? with
          | some last_segment => some (last_segment.fileoff + last_segment.data.length)
          | Option.none => Option.none

/-- Bit facts of the effective-flags computation. -/
theorem effectiveFlags_bits (settings : SigningSettings)
    (previous_cd : Option PrevCodeDirectory) :
    (effectiveFlags settings previous_cd).testBit 1 = settings.signing_key.isNone ∧
      (effectiveFlags settings previous_cd).testBit 17 = false := by
  simp only [effectiveFlags, CS_ADHOC, CS_LINKER_SIGNED]
  cases hk : settings.signing_key.isNone with
  | true =>
      rw [if_pos rfl]
      constructor
      · rw [Nat.testBit_land,
          show Nat.testBit ((2 ^ 32 - 1) ^^^ 131072) 1 = true from by decide, Bool.and_true,
          Nat.testBit_lor, show Nat.testBit 2 1 = true from by decide, Bool.or_true]
      · rw [Nat.testBit_land,
          show Nat.testBit ((2 ^ 32 - 1) ^^^ 131072) 17 = false from by decide,
          Bool.and_false]
  | false =>
      rw [if_neg (by simp)]
      constructor
      · rw [Nat.testBit_land,
          show Nat.testBit ((2 ^ 32 - 1) ^^^ 131072) 1 = true from by decide, Bool.and_true,
          Nat.testBit_land,
          show Nat.testBit ((2 ^ 32 - 1) ^^^ 2) 1 = false from by decide, Bool.and_false]
      · rw [Nat.testBit_land,
          show Nat.testBit ((2 ^ 32 - 1) ^^^ 131072) 17 = false from by decide,
          Bool.and_false]

/-- C4: the Code Directory's flags have the `ADHOC` bit set iff no signing
key is configured, and never have the `LINKER_SIGNED` bit set, whatever the
scope-provided flags or the previous Code Directory's flags held. -/
theorem create_code_directory_flags (oc : SigningOracles) (settings : SigningSettings)
    (macho : MachO) (signature : Option EmbeddedSignature) (cd : CodeDirectoryBlob)
    (h : create_code_directory oc settings macho signature = CdResult.ok cd) :
    cd.flags.testBit 1 = settings.signing_key.isNone ∧ cd.flags.testBit 17 = false := by
  simp only [create_code_directory, cdFinalize] at h
  split at h
  all_goals try exact CdResult.noConfusion h
  split at h
  all_goals try exact CdResult.noConfusion h
  split at h
  all_goals try exact CdResult.noConfusion h
  split at h
  all_goals try exact CdResult.noConfusion h
  cases h
  exact effectiveFlags_bits settings _

/-- The code-limit pair computed by the builder follows the spec-side source
choice, split on the `u32` boundary. -/
theorem codeLimitPair_eq (macho : MachO) :
    codeLimitPair macho = (specCodeLimit macho).map fun limit =>
      if 2 ^ 32 - 1 < limit then (0, some limit) else (limit, Option.none) := by
  cases hfs : find_signature_data macho with
  | some sig => simp [codeLimitPair, specCodeLimit, hfs, apply_ite]
  | none =>
      cases hfind : macho.segments.find? fun x => isLinkeditName x.segname with
      | some segment => simp [codeLimitPair, specCodeLimit, hfs, hfind, apply_ite]
      | none =>
          cases hlast : macho.segments.getLast? with
          | some seg => simp [codeLimitPair, specCodeLimit, hfs, hfind, hlast, apply_ite]
          | none => simp [codeLimitPair, specCodeLimit, hfs, hfind, hlast]

/-- C5: the code limit is the existing signature's absolute start offset,
else the end of `__LINKEDIT`, else the end of the last segment; it lands in
the 32-bit `code_limit` field when it fits and otherwise in `code_limit_64`
with `code_limit` zero, so one of the two fields is always zero/absent. -/
theorem create_code_directory_code_limit (oc : SigningOracles) (settings : SigningSettings)
    (macho : MachO) (signature : Option EmbeddedSignature) (cd : CodeDirectoryBlob)
    (h : create_code_directory oc settings macho signature = CdResult.ok cd) :
    ∃ limit, specCodeLimit macho = some limit ∧
      ((limit < 2 ^ 32 ∧ cd.code_limit = limit ∧ cd.code_limit_64 = Option.none) ∨
        (2 ^ 32 ≤ limit ∧ cd.code_limit = 0 ∧ cd.code_limit_64 = some limit)) ∧
      (cd.code_limit = 0 ∨ cd.code_limit_64 = Option.none) := by
  simp only [create_code_directory, cdFinalize] at h
  split at h
  all_goals try exact CdResult.noConfusion h
  rename_i cl cl64 heq
  split at h
  all_goals try exact CdResult.noConfusion h
  split at h
  all_goals try exact CdResult.noConfusion h
  split at h
  all_goals try exact CdResult.noConfusion h
  cases h
  rw [codeLimitPair_eq] at heq
  cases hs : specCodeLimit macho with
  | none => rw [hs] at heq; exact Option.noConfusion heq
  | some limit =>
      rw [hs] at heq
      simp only [Option.map_some'] at heq
      refine ⟨limit, rfl, ?_⟩
      by_cases hc : 2 ^ 32 - 1 < limit
      · rw [if_pos hc] at heq
        injection heq with hpr
        injection hpr with e1 e2
        subst e1
        subst e2
        exact ⟨Or.inr ⟨by omega, rfl, rfl⟩, Or.inl rfl⟩
      · rw [if_neg hc] at heq
        injection heq with hpr
        injection hpr with e1 e2
        subst e1
        subst e2
        exact ⟨Or.inl ⟨by omega, rfl, rfl⟩, Or.inr rfl⟩

/-- Concrete oracles for running the builder. -/
def oc0 : SigningOracles where
  digest := fun _ data => some (data ++ [1])
  computeCodeHashes := fun _ _ _ => []
  requirementSetBlob := fun l => l.flatten
  entitlementsBlob := fun str => str.data.map Char.toNat

/-- Fallback record for extracting a Code Directory out of a `CdResult`. -/
def cdFallback : CodeDirectoryBlob where
  version := 0
  flags := 0
  code_limit := 0
  hash_size := 0
  hash_type := DigestType.None
  platform := 0
  page_size := 0
  spare2 := 0
  scatter_offset := Option.none
  spare3 := Option.none
  code_limit_64 := Option.none
  exec_seg_base := Option.none
  exec_seg_limit := Option.none
  exec_seg_flags := Option.none
  runtime := Option.none
  pre_encrypt_offset := Option.none
  linkage_hash_type := Option.none
  linkage_truncated := Option.none
  spare4 := Option.none
  linkage_offset := Option.none
  linkage_size := Option.none
  ident := ""
  team_name := Option.none
  code_hashes := []
  special_hashes := []

/-- The Code Directory the builder yields on the running example. -/
def cdC4 : CodeDirectoryBlob :=
  match create_code_directory oc0 sEx m0 Option.none with
  | CdResult.ok cd => cd
  | _ => cdFallback

/-- The example Mach-O without an existing signature. -/
def mC5 : MachO :=
  { m0 with signature := Option.none }

/-- The Code Directory the builder yields on the unsigned example. -/
def cdC5 : CodeDirectoryBlob :=
  match create_code_directory oc0 sEx mC5 Option.none with
  | CdResult.ok cd => cd
  | _ => cdFallback

set_option maxRecDepth 10000 in
theorem create_code_directory_flags_witness :
    create_code_directory oc0 sEx m0 Option.none = CdResult.ok cdC4 ∧
      (cdC4.flags.testBit 1 = sEx.signing_key.isNone ∧ cdC4.flags.testBit 17 = false) :=
  ⟨by decide, create_code_directory_flags oc0 sEx m0 Option.none cdC4 (by decide)⟩

set_option maxRecDepth 10000 in
theorem create_code_directory_code_limit_witness :
    create_code_directory oc0 sEx mC5 Option.none = CdResult.ok cdC5 ∧
      ∃ limit, specCodeLimit mC5 = some limit ∧
        ((limit < 2 ^ 32 ∧ cdC5.code_limit = limit ∧ cdC5.code_limit_64 = Option.none) ∨
          (2 ^ 32 ≤ limit ∧ cdC5.code_limit = 0 ∧ cdC5.code_limit_64 = some limit)) ∧
        (cdC5.code_limit = 0 ∨ cdC5.code_limit_64 = Option.none) :=
  ⟨by decide, create_code_directory_code_limit oc0 sEx mC5 Option.none cdC5 (by decide)⟩

/-! ### Scope strings: `Display`, `TryFrom<&str>` (`signing.rs`) -/

/-- Modelled from the spec: the recognized CPU-name constants (§6 names
`arm`, `arm64`, `arm64_32`, `x86_64`); the numeric values are the external
`goblin` constants' and no theorem below depends on them. -/
def CPU_TYPE_ARM : Nat := 12

def CPU_TYPE_ARM64 : Nat := 16777228

def CPU_TYPE_ARM64_32 : Nat := 33554444

def CPU_TYPE_X86_64 : Nat := 16777223

/-- Little-endian base-10 digits, with explicit fuel so that the kernel can
evaluate it (`fuel ≥ n` makes it total). -/
def digitsAux10 : Nat → Nat → List Nat
  | _, 0 => []
  | 0, _ + 1 => []
  | fuel + 1, n + 1 => (n + 1) % 10 :: digitsAux10 fuel ((n + 1) / 10)

/-- Decimal rendering of an integer (Rust `{}` on `usize`/`u32`). -/
def natToChars (n : Nat) : List Char :=
  if n = 0 then ['0']
  else (digitsAux10 n n).reverse.map fun d => Char.ofNat (48 + d)

/-- Rust `str::parse` into an unsigned integer type with exclusive bound
`bound`: an optional leading `+`, then one or more decimal digits, rejecting
values at or above the bound. -/
def parseNat? (bound : Nat) (cs : List Char) : Option Nat :=
  let ds := if cs.head? = some '+' then cs.drop 1 else cs
  if ds = [] then Option.none
  else if ds.all Char.isDigit then
    let v := ds.foldl (fun a ch => a * 10 + (ch.toNat - 48)) 0
    if v < bound then some v else Option.none
  else Option.none

/-- Rust `str::split(sep)`: the (possibly empty) chunks between separators. -/
def splitChar (sep : Char) : List Char → List (List Char)
  | [] => [[]]
  | c :: rest =>
      if c = sep then [] :: splitChar sep rest
      else
        match splitChar sep rest with
        | [] => [[c]]
        | p :: ps => (c :: p) :: ps

/-- Rust `str::rsplitn(2, sep)` collected: one part when `sep` is absent,
else the part after the last `sep` followed by the part before it. -/
def rsplitn2 (sep : Char) (s : List Char) : List (List Char) :=
  let rev := s.reverse
  let pre := rev.takeWhile fun c => !(c == sep)
  if pre.length = rev.length then [s]
  else [pre.reverse, (rev.drop (pre.length + 1)).reverse]

/-- The recognized `cpu_type=` names. -/
def cpuName? (value : List Char) : Option Nat :=
  if value = "arm".data then some CPU_TYPE_ARM
  else if value = "arm64".data then some CPU_TYPE_ARM64
  else if value = "arm64_32".data then some CPU_TYPE_ARM64_32
  else if value = "x86_64".data then some CPU_TYPE_X86_64
  else Option.none

/-- `SettingsScope::parse_at_expr`: an index when the expression parses as
`usize`, else `[cpu_type=...]` with a recognized name or a `u32`; the error
messages are collapsed into `()`. -/
def parse_at_expr (at_expr : List Char) : Except Unit (Option Nat × Option Nat) :=
  match parseNat? (2 ^ 64) at_expr with
  | some index => Except.ok (some index, Option.none)
  | Option.none =>
      if at_expr.head? = some '[' ∧ at_expr.getLast? = some ']' then
        match splitChar '=' ((at_expr.drop 1).dropLast) with
        | [key, value] =>
            if key ≠ "cpu_type".data then Except.error ()
            else
              match cpuName? value with
              | some ct => Except.ok (Option.none, some ct)
              | Option.none =>
                  match parseNat? (2 ^ 32) value with
                  | some ct => Except.ok (Option.none, some ct)
                  | Option.none => Except.error ()
        | _ => Except.error ()
      else Except.error ()

/-- Outcome of `TryFrom<&str> for SettingsScope`: a scope, a parse error, or
the `panic!` on the impossible `parse_at_expr` shapes. -/
inductive ScopeParseResult where
  | ok (scope : SettingsScope)
  | err
  | panic
deriving DecidableEq, Repr

/-- `TryFrom<&str> for SettingsScope`: the literal `@main`, an `@`
expression (`strip_prefix('@')` rendered through `head?`/`drop 1`), or a
path optionally followed by `@` and an expression (`rsplitn(2, '@')`). -/
def tryFromScope (s : List Char) : ScopeParseResult :=
  if s = "@main".data then ScopeParseResult.ok SettingsScope.Main
  else if s.head? = some '@' then
    match parse_at_expr (s.drop 1) with
    | Except.error _ => ScopeParseResult.err
    | Except.ok (some index, Option.none) =>
        ScopeParseResult.ok (SettingsScope.MultiArchIndex index)
    | Except.ok (Option.none, some ct) =>
        ScopeParseResult.ok (SettingsScope.MultiArchCpuType ct)
    | Except.ok _ => ScopeParseResult.panic
  else
    match rsplitn2 '@' s with
    | [_] => ScopeParseResult.ok (SettingsScope.Path ⟨s⟩)
    | [at_expr, path] =>
        match parse_at_expr at_expr with
        | Except.error _ => ScopeParseResult.err
        | Except.ok (some index, Option.none) =>
            ScopeParseResult.ok (SettingsScope.PathMultiArchIndex ⟨path⟩ index)
        | Except.ok (Option.none, some ct) =>
            ScopeParseResult.ok (SettingsScope.PathMultiArchCpuType ⟨path⟩ ct)
        | Except.ok _ => ScopeParseResult.panic
    | _ => ScopeParseResult.panic

/-- `Display for SettingsScope`: the human-readable descriptions the source
emits. -/
def scopeDisplay : SettingsScope → List Char
  | SettingsScope.Main => "main signing target".data
  | SettingsScope.Path path => "path ".data ++ path.data
  | SettingsScope.MultiArchIndex index =>
      "fat/universal Mach-O binaries at index ".data ++ natToChars index
  | SettingsScope.MultiArchCpuType cpu_type =>
      "fat/universal Mach-O binaries for CPU ".data ++ natToChars cpu_type
  | SettingsScope.PathMultiArchIndex path index =>
      "fat/universal Mach-O binaries at index ".data ++ natToChars index ++
        " under path ".data ++ path.data
  | SettingsScope.PathMultiArchCpuType path cpu_type =>
      "fat/universal Mach-O binaries for CPU ".data ++ natToChars cpu_type ++
        " under path ".data ++ path.data

/-- The canonical `@[cpu_type=<int>]` expression body. -/
def cpuAtExpr (c : Nat) : List Char :=
  '[' :: (("cpu_type".data ++ '=' :: natToChars c) ++ [']'])

/-- Spec-side (§6 grammar): the canonical string of each scope — `@main`,
`@<int>`, `@[cpu_type=<int>]`, `<path>`, `<path>@<int>`,
`<path>@[cpu_type=<int>]`. -/
def canonicalScopeString : SettingsScope → List Char
  | SettingsScope.Main => "@main".data
  | SettingsScope.Path path => path.data
  | SettingsScope.MultiArchIndex i => '@' :: natToChars i
  | SettingsScope.MultiArchCpuType c => '@' :: cpuAtExpr c
  | SettingsScope.PathMultiArchIndex path i => path.data ++ '@' :: natToChars i
  | SettingsScope.PathMultiArchCpuType path c => path.data ++ '@' :: cpuAtExpr c

/-- Spec-side: the scopes the canonical grammar can denote unambiguously — a
path free of `@`, a nonempty path in the combined forms, an index below
`2^64`, a CPU type below `2^32`. -/
def canonicalOKB : SettingsScope → Bool
  | SettingsScope.Main => true
  | SettingsScope.Path p => decide (¬ '@' ∈ p.data)
  | SettingsScope.MultiArchIndex i => decide (i < 2 ^ 64)
  | SettingsScope.MultiArchCpuType c => decide (c < 2 ^ 32)
  | SettingsScope.PathMultiArchIndex p i =>
      decide (p.data ≠ [] ∧ ¬ '@' ∈ p.data ∧ i < 2 ^ 64)
  | SettingsScope.PathMultiArchCpuType p c =>
      decide (p.data ≠ [] ∧ ¬ '@' ∈ p.data ∧ c < 2 ^ 32)

/-- The fuel-based digits agree with `Nat.digits` once the fuel covers the
number. -/
theorem digitsAux10_eq : ∀ (fuel n : Nat), n ≤ fuel → digitsAux10 fuel n = Nat.digits 10 n := by
  intro fuel
  induction fuel with
  | zero =>
      intro n hn
      interval_cases n
      rw [Nat.digits_zero, digitsAux10]
  | succ f ih =>
      intro n hn
      match n with
      | 0 => rw [Nat.digits_zero, digitsAux10]
      | m + 1 =>
          rw [digitsAux10, ih ((m + 1) / 10) (by
            have := Nat.div_lt_self (Nat.succ_pos m) (by norm_num : 1 < 10)
            omega)]
          rw [Nat.digits_def' (by norm_num : (1 : Nat) < 10) (Nat.succ_pos m)]

theorem charOfDigit_toNat (d : Nat) (h : d < 10) : (Char.ofNat (48 + d)).toNat = 48 + d := by
  interval_cases d <;> decide

theorem charOfDigit_isDigit (d : Nat) (h : d < 10) :
    (Char.ofNat (48 + d)).isDigit = true := by
  interval_cases d <;> decide

/-- A decimal digit character is none of the parser's structural
characters. -/
theorem digit_char_facts (c : Char) (h : c.isDigit = true) :
    ¬ c = '+' ∧ ¬ c = '@' ∧ ¬ c = '=' ∧ ¬ c = '[' := by
  refine ⟨fun he => ?_, fun he => ?_, fun he => ?_, fun he => ?_⟩ <;>
    (subst he; exact absurd h (by decide))

theorem natToChars_all_digits (n : Nat) : (natToChars n).all Char.isDigit = true := by
  rw [natToChars]
  split
  · decide
  · rename_i hn0
    rw [List.all_eq_true]
    intro c hc
    obtain ⟨d, hd, hfd⟩ := List.mem_map.mp hc
    have hd10 : d < 10 := by
      rw [digitsAux10_eq n n le_rfl] at hd
      exact Nat.digits_lt_base (by norm_num) (List.mem_reverse.mp hd)
    rw [← hfd]
    exact charOfDigit_isDigit d hd10

theorem natToChars_ne_nil (n : Nat) : natToChars n ≠ [] := by
  rw [natToChars]
  split
  · simp
  · rename_i hn0
    rw [Ne, List.map_eq_nil_iff, List.reverse_eq_nil_iff, digitsAux10_eq n n le_rfl]
    exact Nat.digits_ne_nil_iff_ne_zero.mpr hn0

theorem natToChars_no_at (n : Nat) : ∀ ch ∈ natToChars n, ¬ ch = '@' := fun ch hch =>
  (digit_char_facts ch (List.all_eq_true.mp (natToChars_all_digits n) ch hch)).2.1

theorem natToChars_no_eq_sign (n : Nat) : ∀ ch ∈ natToChars n, ¬ ch = '=' := fun ch hch =>
  (digit_char_facts ch (List.all_eq_true.mp (natToChars_all_digits n) ch hch)).2.2.1

/-- Horner evaluation of the rendered digits. -/
theorem foldl_digit_chars (l : List Nat) (hl : ∀ d ∈ l, d < 10) (a : Nat) :
    ((l.reverse.map fun d => Char.ofNat (48 + d)).foldl
        (fun a ch => a * 10 + (ch.toNat - 48)) a) =
      a * 10 ^ l.length + Nat.ofDigits 10 l := by
  induction l generalizing a with
  | nil => simp
  | cons d t ih =>
      have hd10 : d < 10 := hl d (by simp)
      rw [List.reverse_cons, List.map_append, List.foldl_append]
      rw [ih (fun x hx => hl x (by simp [hx]))]
      simp only [List.map_cons, List.map_nil, List.foldl_cons, List.foldl_nil]
      rw [charOfDigit_toNat d hd10, Nat.ofDigits_cons]
      have h48 : 48 + d - 48 = d := by omega
      rw [h48, List.length_cons, pow_succ]
      ring

/-- `parse` succeeds on the decimal rendering of a below-bound value. -/
theorem parseNat_natToChars (bound n : Nat) (h : n < bound) :
    parseNat? bound (natToChars n) = some n := by
  have hdig := natToChars_all_digits n
  have hnil := natToChars_ne_nil n
  have hhead : ¬ (natToChars n).head? = some '+' := by
    intro hh
    have hmem : '+' ∈ natToChars n := by
      rcases hx : natToChars n with _ | ⟨c, t⟩
      · rw [hx] at hh
        exact Option.noConfusion hh
      · rw [hx] at hh
        have hc : c = '+' := by simpa using hh
        rw [hc]
        exact List.mem_cons_self _ _
    have := List.all_eq_true.mp hdig _ hmem
    exact absurd this (by decide)
  simp only [parseNat?]
  rw [if_neg hhead, if_neg hnil, if_pos hdig]
  rcases Nat.eq_zero_or_pos n with hn0 | hn0
  · subst hn0
    rw [show natToChars 0 = ['0'] from rfl]
    rw [show ((['0'] : List Char).foldl (fun a ch => a * 10 + (ch.toNat - 48)) 0) = 0 from rfl]
    rw [if_pos h]
  · have hfold : (natToChars n).foldl (fun a ch => a * 10 + (ch.toNat - 48)) 0 = n := by
      rw [natToChars, if_neg (by omega)]
      rw [digitsAux10_eq n n le_rfl]
      rw [foldl_digit_chars _ (fun d hd => Nat.digits_lt_base (by norm_num) hd) 0]
      rw [Nat.zero_mul, Nat.zero_add]
      exact Nat.ofDigits_digits 10 n
    rw [hfold, if_pos h]

/-- `parse` fails when the first character is neither `+` nor a digit. -/
theorem parseNat_nondigit_head (bound : Nat) (c : Char) (t : List Char)
    (hplus : ¬ c = '+') (hdig : c.isDigit = false) :
    parseNat? bound (c :: t) = Option.none := by
  simp only [parseNat?]
  rw [if_neg (show ¬ (c :: t).head? = some '+' by simp [hplus])]
  rw [if_neg (show ¬ c :: t = [] by simp)]
  rw [if_neg (show ¬ (c :: t).all Char.isDigit = true by simp [List.all_cons, hdig])]

/-- No all-digit string is a recognized CPU name. -/
theorem cpuName_of_digits (l : List Char) (h : l.all Char.isDigit = true) :
    cpuName? l = Option.none := by
  have hne : ∀ (w : List Char) (c : Char) (t : List Char), w = c :: t →
      c.isDigit = false → ¬ l = w := by
    intro w c t hw hc hl
    subst hw
    rw [hl, List.all_cons, hc] at h
    simp at h
  rw [cpuName?]
  rw [if_neg (hne _ 'a' _ rfl (by decide)), if_neg (hne _ 'a' _ rfl (by decide)),
    if_neg (hne _ 'a' _ rfl (by decide)), if_neg (hne _ 'x' _ rfl (by decide))]

theorem splitChar_no_sep (sep : Char) :
    ∀ l : List Char, (∀ ch ∈ l, ¬ ch = sep) → splitChar sep l = [l] := by
  intro l
  induction l with
  | nil => intro _; rfl
  | cons c t ih =>
      intro h
      rw [splitChar, if_neg (h c (by simp))]
      rw [ih fun ch hch => h ch (by simp [hch])]

theorem splitChar_pre (sep : Char) :
    ∀ (p l : List Char), (∀ ch ∈ p, ¬ ch = sep) →
      splitChar sep (p ++ sep :: l) = p :: splitChar sep l := by
  intro p
  induction p with
  | nil =>
      intro l _
      rw [List.nil_append, splitChar, if_pos rfl]
  | cons c t ih =>
      intro l h
      rw [List.cons_append, splitChar, if_neg (h c (by simp))]
      rw [ih l fun ch hch => h ch (by simp [hch])]

theorem takeWhile_append_stop (p : Char → Bool) (l1 : List Char) (c0 : Char) (l2 : List Char)
    (h1 : ∀ c ∈ l1, p c = true) (h2 : p c0 = false) :
    (l1 ++ c0 :: l2).takeWhile p = l1 := by
  induction l1 with
  | nil =>
      rw [List.nil_append]
      exact List.takeWhile_cons_of_neg (by simp [h2])
  | cons c t ih =>
      rw [List.cons_append, List.takeWhile_cons_of_pos (h1 c (by simp))]
      rw [ih fun x hx => h1 x (by simp [hx])]

/-- `rsplitn(2, sep)` on a separator-free string is that string alone. -/
theorem rsplitn2_no_sep (sep : Char) (l : List Char) (h : ∀ ch ∈ l, ¬ ch = sep) :
    rsplitn2 sep l = [l] := by
  simp only [rsplitn2]
  have hpre : l.reverse.takeWhile (fun c => !(c == sep)) = l.reverse := by
    rw [List.takeWhile_eq_self_iff]
    intro a ha
    simp [h a (List.mem_reverse.mp ha)]
  rw [hpre, if_pos rfl]

/-- `rsplitn(2, sep)` splits at the last separator. -/
theorem rsplitn2_last (sep : Char) (p d : List Char) (hp : ∀ ch ∈ p, ¬ ch = sep)
    (hd : ∀ ch ∈ d, ¬ ch = sep) :
    rsplitn2 sep (p ++ sep :: d) = [d, p] := by
  simp only [rsplitn2]
  have hrev : (p ++ sep :: d).reverse = d.reverse ++ sep :: p.reverse := by
    rw [List.reverse_append, List.reverse_cons, List.append_assoc, List.singleton_append]
  rw [hrev]
  rw [takeWhile_append_stop _ _ _ _ (fun c hc => by simp [hd c (List.mem_reverse.mp hc)])
    (by simp)]
  rw [if_neg (by
    simp only [List.length_append, List.length_cons, List.length_reverse]
    omega)]
  have hdrop : (d.reverse ++ sep :: p.reverse).drop (d.reverse.length + 1) = p.reverse := by
    rw [show d.reverse ++ sep :: p.reverse = (d.reverse ++ [sep]) ++ p.reverse from by
      rw [List.append_assoc, List.singleton_append]]
    exact drop_append_length _ _ _ (by simp)
  rw [hdrop, List.reverse_reverse, List.reverse_reverse]

/-- `parse_at_expr` on a rendered index. -/
theorem parse_at_expr_num (i : Nat) (h : i < 2 ^ 64) :
    parse_at_expr (natToChars i) = Except.ok (some i, Option.none) := by
  simp only [parse_at_expr]
  rw [parseNat_natToChars _ _ h]

/-- `parse_at_expr` on a canonical `[cpu_type=<int>]` expression. -/
theorem parse_at_expr_cpu (c : Nat) (h : c < 2 ^ 32) :
    parse_at_expr (cpuAtExpr c) = Except.ok (Option.none, some c) := by
  have hdig := natToChars_all_digits c
  rw [cpuAtExpr, parse_at_expr]
  rw [parseNat_nondigit_head _ '[' _ (by decide) (by decide)]
  have hlast : ('[' :: (("cpu_type".data ++ '=' :: natToChars c) ++ [']'])).getLast? =
      some ']' := by
    rw [show '[' :: (("cpu_type".data ++ '=' :: natToChars c) ++ [']']) =
        ('[' :: ("cpu_type".data ++ '=' :: natToChars c)) ++ [']'] from
        (List.cons_append _ _ _).symm]
    exact List.getLast?_concat _
  rw [if_pos ⟨rfl, hlast⟩]
  rw [show (('[' :: (("cpu_type".data ++ '=' :: natToChars c) ++ [']'])).drop 1).dropLast =
      "cpu_type".data ++ '=' :: natToChars c from by
    rw [show ('[' :: (("cpu_type".data ++ '=' :: natToChars c) ++ [']'])).drop 1 =
        ("cpu_type".data ++ '=' :: natToChars c) ++ [']'] from rfl]
    exact List.dropLast_concat]
  rw [splitChar_pre '=' _ _ (by decide)]
  rw [splitChar_no_sep '=' _ (natToChars_no_eq_sign c)]
  simp [cpuName_of_digits _ hdig]
  rw [parseNat_natToChars _ _ (show c < 4294967296 by simpa using h)]

/-- No character of a canonical CPU expression is `@`. -/
theorem cpuAtExpr_no_at (c : Nat) : ∀ ch ∈ cpuAtExpr c, ¬ ch = '@' := by
  intro ch hch he
  subst he
  rw [cpuAtExpr] at hch
  rcases List.mem_cons.mp hch with h1 | hch2
  · exact absurd h1 (by decide)
  rcases List.mem_append.mp hch2 with hch3 | h4
  · rcases List.mem_append.mp hch3 with h5 | h6
    · exact absurd h5 (by decide)
    · rcases List.mem_cons.mp h6 with h7 | hmem
      · exact absurd h7 (by decide)
      · exact natToChars_no_at c _ hmem rfl
  · rcases List.mem_cons.mp h4 with h8 | h9
    · exact absurd h8 (by decide)
    · exact absurd h9 (by simp)

/-- C7 amended: the source `Display` strings are human-readable descriptions
and do not round-trip (see the counterexample); for every scope the §6
canonical grammar can denote — paths free of `@`, nonempty paths in the
combined forms, indexes below `2^64`, CPU types below `2^32` — parsing the
canonical string with `TryFrom<&str>` yields the scope back. -/
theorem tryFromScope_canonical (x : SettingsScope) (h : canonicalOKB x = true) :
    tryFromScope (canonicalScopeString x) = ScopeParseResult.ok x := by
  cases x with
  | Main => decide
  | Path p =>
      simp only [canonicalOKB] at h
      have hnc : ¬ '@' ∈ p.data := of_decide_eq_true h
      have hne : ¬ p.data = "@main".data := fun he => hnc (by rw [he]; decide)
      have hhd : ¬ p.data.head? = some '@' := by
        intro hh
        rcases hx : p.data with _ | ⟨c, t⟩
        · rw [hx] at hh
          exact Option.noConfusion hh
        · rw [hx] at hh
          have hc : c = '@' := by simpa using hh
          exact hnc (by rw [hx, hc]; exact List.mem_cons_self _ _)
      rw [canonicalScopeString, tryFromScope]
      rw [if_neg hne, if_neg hhd,
        rsplitn2_no_sep '@' p.data (fun ch hch he => hnc (he ▸ hch))]
  | MultiArchIndex i =>
      simp only [canonicalOKB] at h
      have hi : i < 2 ^ 64 := of_decide_eq_true h
      have hne : ¬ ('@' :: natToChars i) = "@main".data := by
        intro he
        rw [show "@main".data = '@' :: "main".data from rfl] at he
        injection he with _ h2
        have hm : 'm' ∈ natToChars i := by rw [h2]; decide
        exact absurd (List.all_eq_true.mp (natToChars_all_digits i) _ hm) (by decide)
      rw [canonicalScopeString, tryFromScope]
      rw [if_neg hne,
        if_pos (show ('@' :: natToChars i).head? = some '@' from rfl),
        show ('@' :: natToChars i).drop 1 = natToChars i from rfl,
        parse_at_expr_num i hi]
  | MultiArchCpuType c =>
      simp only [canonicalOKB] at h
      have hc : c < 2 ^ 32 := of_decide_eq_true h
      have hne : ¬ ('@' :: cpuAtExpr c) = "@main".data := by
        intro he
        rw [show "@main".data = '@' :: "main".data from rfl] at he
        injection he with _ h2
        rw [cpuAtExpr] at h2
        injection h2 with h3 _
        exact absurd h3 (by decide)
      rw [canonicalScopeString, tryFromScope]
      rw [if_neg hne,
        if_pos (show ('@' :: cpuAtExpr c).head? = some '@' from rfl),
        show ('@' :: cpuAtExpr c).drop 1 = cpuAtExpr c from rfl,
        parse_at_expr_cpu c hc]
  | PathMultiArchIndex p i =>
      simp only [canonicalOKB] at h
      obtain ⟨hpn, hnc, hi⟩ := of_decide_eq_true h
      have hne : ¬ (p.data ++ '@' :: natToChars i) = "@main".data := by
        intro he
        rcases hx : p.data with _ | ⟨c, t⟩
        · exact hpn hx
        · rw [hx, List.cons_append,
            show "@main".data = '@' :: "main".data from rfl] at he
          injection he with h1 _
          exact hnc (by rw [hx, h1]; exact List.mem_cons_self _ _)
      have hhd : ¬ (p.data ++ '@' :: natToChars i).head? = some '@' := by
        intro hh
        rcases hx : p.data with _ | ⟨c, t⟩
        · exact hpn hx
        · rw [hx, List.cons_append] at hh
          have hc : c = '@' := by simpa using hh
          exact hnc (by rw [hx, hc]; exact List.mem_cons_self _ _)
      rw [canonicalScopeString, tryFromScope]
      rw [if_neg hne, if_neg hhd,
        rsplitn2_last '@' p.data (natToChars i) (fun ch hch he => hnc (he ▸ hch))
          (natToChars_no_at i)]
      simp only []
      rw [parse_at_expr_num i hi]
  | PathMultiArchCpuType p c =>
      simp only [canonicalOKB] at h
      obtain ⟨hpn, hnc, hc⟩ := of_decide_eq_true h
      have hne : ¬ (p.data ++ '@' :: cpuAtExpr c) = "@main".data := by
        intro he
        rcases hx : p.data with _ | ⟨c0, t⟩
        · exact hpn hx
        · rw [hx, List.cons_append,
            show "@main".data = '@' :: "main".data from rfl] at he
          injection he with h1 _
          exact hnc (by rw [hx, h1]; exact List.mem_cons_self _ _)
      have hhd : ¬ (p.data ++ '@' :: cpuAtExpr c).head? = some '@' := by
        intro hh
        rcases hx : p.data with _ | ⟨c0, t⟩
        · exact hpn hx
        · rw [hx, List.cons_append] at hh
          have hc0 : c0 = '@' := by simpa using hh
          exact hnc (by rw [hx, hc0]; exact List.mem_cons_self _ _)
      rw [canonicalScopeString, tryFromScope]
      rw [if_neg hne, if_neg hhd,
        rsplitn2_last '@' p.data (cpuAtExpr c) (fun ch hch he => hnc (he ▸ hch))
          (cpuAtExpr_no_at c)]
      simp only []
      rw [parse_at_expr_cpu c hc]

/-- For C7 as frozen: parsing the source `Display` string of the main scope
yields a path scope, not the main scope, so `parse(format(x)) = x` fails at
`x = Main`. -/
theorem scope_display_roundtrip_fails :
    tryFromScope (scopeDisplay SettingsScope.Main) =
      ScopeParseResult.ok (SettingsScope.Path "main signing target") := by
  decide

theorem tryFromScope_canonical_witness :
    canonicalOKB (SettingsScope.PathMultiArchCpuType "a/b" 7) = true ∧
      tryFromScope (canonicalScopeString (SettingsScope.PathMultiArchCpuType "a/b" 7)) =
        ScopeParseResult.ok (SettingsScope.PathMultiArchCpuType "a/b" 7) :=
  ⟨by decide, tryFromScope_canonical _ (by decide)⟩

end AppleCodesign
